import Mathlib

/-!
# Verification of the NEON pairwise-comparison engine of pytrimal

Shallow embedding of `src/pytrimal/impl/neon.cpp`, the SIMD backend that
computes pairwise identity statistics, per-column conservation scores and
per-sequence overlap scores over a multiple sequence alignment, together
with theorems settling the frozen specification claims.

Modelling conventions:
* machine bytes and counters are `Nat` with explicit `% 256` (uint8) and
  `% 65536` (uint16) reductions where the hardware wraps;
* a 128-bit NEON register of per-lane byte counters is a function
  `Nat → Nat` of which only lanes `0..15` are meaningful (all reads go
  through lanes `< 16`);
* IEEE float arithmetic is modelled by exact rationals; the NaN produced
  by the unguarded `0.0f/0` division is modelled by `Option`'s `none`,
  which the embedding propagates exactly where IEEE NaN would propagate.
  Every property proved here (branch selection, bounds that include the
  representable endpoints 0 and 1, symmetry, and equality of integer
  counts) is invariant under correct rounding, so the rational model is
  faithful for these claims.
-/

namespace PyTrimal

/-! ## Lane-level primitives -/

/-- One fused mask-and-accumulate SIMD step of the pairwise scans: lane `l`
of the accumulator receives the 0/1 indicator of predicate `p` at position
`k + l` (the source materialises the indicator with `vceqq_u8`/`vorrq_u8`/
`vbicq_u8`/`vandq_u8` against a register of ones and adds it with
`vaddq_u8`, whose uint8 lanes wrap modulo 256). -/
def laneAccum (p : Nat → Bool) (k : Nat) (acc : Nat → Nat) : Nat → Nat :=
  fun l => (acc l + (if p (k + l) then 1 else 0)) % 256

/-- `vpaddlq_u8`: pairwise widening addition, adding adjacent uint8 lanes
`2i` and `2i+1` into uint16 lane `i` (eight meaningful lanes). -/
def vpaddlq_u8 (a : Nat → Nat) : Nat → Nat :=
  fun i => (a (2 * i) + a (2 * i + 1)) % 65536

/-- `vaddvq_u16`: horizontal add of the eight uint16 lanes, the result
wrapping at the uint16 width. -/
def vaddvq_u16 (b : Nat → Nat) : Nat :=
  (∑ i in Finset.range 8, b i) % 65536

/-- The file-local `vhaddq_u8` helper (aarch64 branch): reduce the sixteen
uint8 lanes of `a` to a scalar by first widening pairwise into uint16
lanes (`vpaddlq_u8`) and then horizontally adding them (`vaddvq_u16`). -/
def vhaddq_u8 (a : Nat → Nat) : Nat :=
  vaddvq_u16 (vpaddlq_u8 a)

/-! ## The chunked pairwise scan skeleton

`calculateMatrixIdentity` and `calculateSeqIdentity` share one loop
skeleton over the residue range `[0, n)`:
1. an outer loop of unrolled blocks of `UCHAR_MAX = 255` SIMD iterations
   (16 positions each), flushing the byte accumulators into scalar totals
   after each block (`while k + 16*255 < n`);
2. a remainder SIMD loop (`while k + 16 < n`) followed by one flush;
3. a scalar tail (`while k < n`).
The two byte-counter registers accumulate per-position 0/1 indicators of
two predicates `p` (the "match"/"hit" test) and `q` (the "length"/"dst"
test). -/

/-- `m` consecutive SIMD accumulation iterations starting at position `k`,
advancing by 16 lanes per iteration (the body shared by the unrolled inner
loop and the remainder loop). -/
def simdIter2 (p q : Nat → Bool) :
    Nat → Nat → ((Nat → Nat) × (Nat → Nat)) → ((Nat → Nat) × (Nat → Nat))
  | _, 0, accs => accs
  | k, m + 1, accs =>
      simdIter2 p q (k + 16) m (laneAccum p k accs.1, laneAccum q k accs.2)

/-- The outer unrolled loop: while `k + 16*255 < n`, run a block of 255
SIMD iterations on freshly zeroed byte accumulators and flush the lanes
into the scalar totals with `vhaddq_u8`. Returns the final `k` and the
accumulated totals. -/
def outerLoop (p q : Nat → Bool) (n k sum len : Nat) : Nat × Nat × Nat :=
  if _h : k + 4080 < n then
    outerLoop p q n (k + 4080)
      (sum + vhaddq_u8 (simdIter2 p q k 255 (fun _ => 0, fun _ => 0)).1)
      (len + vhaddq_u8 (simdIter2 p q k 255 (fun _ => 0, fun _ => 0)).2)
  else (k, sum, len)
termination_by n - k
decreasing_by omega

/-- The remainder SIMD loop: while `k + 16 < n`, keep accumulating into
the (zeroed-at-entry) byte lanes. Returns the final `k` and lanes. -/
def midLoop (p q : Nat → Bool) (n k : Nat)
    (accs : (Nat → Nat) × (Nat → Nat)) : Nat × ((Nat → Nat) × (Nat → Nat)) :=
  if _h : k + 16 < n then
    midLoop p q n (k + 16) (laneAccum p k accs.1, laneAccum q k accs.2)
  else (k, accs)
termination_by n - k
decreasing_by omega

/-- The scalar tail: one position at a time until `k = n`. -/
def tailLoop (p q : Nat → Bool) (n k sum len : Nat) : Nat × Nat :=
  if _h : k < n then
    tailLoop p q n (k + 1) (sum + (if p k then 1 else 0))
      (len + (if q k then 1 else 0))
  else (sum, len)
termination_by n - k
decreasing_by omega

/-- The full chunked scan: outer unrolled loop, remainder loop, one flush,
scalar tail; exactly the skeleton of the two pairwise scans. -/
def chunkedScan (p q : Nat → Bool) (n : Nat) : Nat × Nat :=
  let r1 := outerLoop p q n 0 0 0
  let r2 := midLoop p q n r1.1 (fun _ => 0, fun _ => 0)
  tailLoop p q n r2.1 (r1.2.1 + vhaddq_u8 r2.2.1) (r1.2.2 + vhaddq_u8 r2.2.2)

/-- Naive scalar reference of the same scan, per the spec: a position-at-
a-time count of the positions below `n` satisfying each predicate. -/
def scalarScan (p q : Nat → Bool) (n : Nat) : Nat × Nat :=
  (∑ k in Finset.range n, (if p k then 1 else 0),
   ∑ k in Finset.range n, (if q k then 1 else 0))

/-! ## Exactness of the lane reduction -/

/-- Summing adjacent pairs halves the index range. -/
lemma sum_pair_split (a : Nat → Nat) (m : Nat) :
    ∑ i in Finset.range m, (a (2 * i) + a (2 * i + 1)) =
      ∑ l in Finset.range (2 * m), a l := by
  induction m with
  | zero => simp
  | succ m ih =>
      rw [Finset.sum_range_succ, ih]
      have h2 : 2 * (m + 1) = (2 * m + 1) + 1 := by ring
      rw [h2, Finset.sum_range_succ, Finset.sum_range_succ]
      ring

/-- The pairwise-widening reduction is exact once every lane is at most
255: no pair exceeds the uint16 width and neither does the total. -/
lemma vhaddq_u8_exact (a : Nat → Nat) (h : ∀ l < 16, a l ≤ 255) :
    vhaddq_u8 a = ∑ l in Finset.range 16, a l := by
  unfold vhaddq_u8 vaddvq_u16 vpaddlq_u8
  have hp : ∀ i ∈ Finset.range 8,
      (a (2 * i) + a (2 * i + 1)) % 65536 = a (2 * i) + a (2 * i + 1) := by
    intro i hi
    rw [Finset.mem_range] at hi
    have h1 := h (2 * i) (by omega)
    have h2 := h (2 * i + 1) (by omega)
    omega
  have h16 : (2 : Nat) * 8 = 16 := by norm_num
  rw [Finset.sum_congr rfl hp, sum_pair_split, h16]
  have hb : ∑ l in Finset.range 16, a l ≤ 16 * 255 := by
    have := Finset.sum_le_card_nsmul (Finset.range 16) a 255
      (fun l hl => h l (Finset.mem_range.mp hl))
    simpa using this
  exact Nat.mod_eq_of_lt (by omega)

/-- C8: the lane reduction `vhaddq_u8` returns the exact arithmetic sum of
the sixteen 8-bit lane counters whenever each lane is at most 255; it is
built from a pairwise widening addition into uint16 lanes followed by the
final uint16 reduction, and under the lane bound neither the widened pairs
nor the final reduction wrap. -/
theorem C8_vhaddq_exact (a : Nat → Nat) (h : ∀ l < 16, a l ≤ 255) :
    vhaddq_u8 a = ∑ l in Finset.range 16, a l ∧
    vhaddq_u8 a = vaddvq_u16 (vpaddlq_u8 a) ∧
    (∀ i < 8, a (2 * i) + a (2 * i + 1) < 65536) ∧
    (∑ i in Finset.range 8, (a (2 * i) + a (2 * i + 1))) < 65536 := by
  refine ⟨vhaddq_u8_exact a h, rfl, ?_, ?_⟩
  · intro i hi
    have h1 := h (2 * i) (by omega)
    have h2 := h (2 * i + 1) (by omega)
    omega
  · rw [sum_pair_split]
    have h16 : (2 : Nat) * 8 = 16 := by norm_num
    rw [h16]
    have hb : ∑ l in Finset.range 16, a l ≤ 16 * 255 := by
      have := Finset.sum_le_card_nsmul (Finset.range 16) a 255
        (fun l hl => h l (Finset.mem_range.mp hl))
      simpa using this
    omega

/-- Witness for C8 at the all-saturated register: every lane holds the
maximal counter value 255 and the reduction returns 16 * 255 = 4080. -/
theorem C8_vhaddq_exact_witness : vhaddq_u8 (fun _ => 255) = 4080 := by
  have h := C8_vhaddq_exact (fun _ => 255) (fun l _ => le_refl 255)
  rw [h.1]
  decide

/-! ## Refinement: the chunked scan equals the scalar reference

The proof tracks the per-lane byte counters: a single accumulation run of
`m ≤ 255` SIMD iterations keeps every lane at most `m`, so the `% 256`
wrap never fires and the `vhaddq_u8` flush is the exact count of
satisfied positions in the covered block. -/

/-- Single-register version of `simdIter2` (the two registers of the scan
evolve independently). -/
def simdIter1 (p : Nat → Bool) : Nat → Nat → (Nat → Nat) → (Nat → Nat)
  | _, 0, acc => acc
  | k, m + 1, acc => simdIter1 p (k + 16) m (laneAccum p k acc)

lemma simdIter2_eq_pair (p q : Nat → Bool) (m : Nat) :
    ∀ (k : Nat) (a b : Nat → Nat),
      simdIter2 p q k m (a, b) = (simdIter1 p k m a, simdIter1 q k m b) := by
  induction m with
  | zero => intro k a b; rfl
  | succ m ih => intro k a b; rw [simdIter2, simdIter1, simdIter1]; exact ih _ _ _

/-- Lane value after `m` accumulation iterations: as long as the final
count fits a byte the `% 256` is the identity, and lane `l` holds the
count of satisfied positions among `k + 16*i + l`, `i < m`. -/
lemma simdIter1_lane (p : Nat → Bool) (m : Nat) :
    ∀ (k : Nat) (acc : Nat → Nat) (l : Nat), acc l + m ≤ 255 →
      simdIter1 p k m acc l =
        acc l + ∑ i in Finset.range m, (if p (k + 16 * i + l) then 1 else 0) := by
  induction m with
  | zero => intro k acc l _; simp [simdIter1]
  | succ m ih =>
      intro k acc l hb
      rw [simdIter1]
      have hstep : laneAccum p k acc l = acc l + (if p (k + l) then 1 else 0) := by
        unfold laneAccum
        have hle : acc l + (if p (k + l) then 1 else 0) ≤ 255 := by
          split <;> omega
        exact Nat.mod_eq_of_lt (by omega)
      have hb' : laneAccum p k acc l + m ≤ 255 := by
        rw [hstep]
        split <;> omega
      rw [ih (k + 16) _ l hb', hstep, Finset.sum_range_succ']
      have harg : ∀ i : Nat, k + 16 + 16 * i + l = k + 16 * (i + 1) + l := by
        intro i; ring
      have hzero : k + 16 * 0 + l = k + l := by ring
      simp only [harg, hzero]
      omega

/-- Positions of one `m`-iteration accumulation run, re-indexed from
(lane, iteration) coordinates to the contiguous block `[k, k + 16*m)`. -/
lemma sum_blocks (f : Nat → Nat) (k : Nat) (m : Nat) :
    ∑ i in Finset.range m, ∑ l in Finset.range 16, f (k + 16 * i + l) =
      ∑ j in Finset.Ico k (k + 16 * m), f j := by
  induction m with
  | zero => simp
  | succ m ih =>
      have hblock : ∑ j in Finset.Ico (k + 16 * m) (k + 16 * (m + 1)), f j =
          ∑ l in Finset.range 16, f (k + 16 * m + l) := by
        rw [Finset.sum_Ico_eq_sum_range]
        have hlen : k + 16 * (m + 1) - (k + 16 * m) = 16 := by omega
        rw [hlen]
      rw [Finset.sum_range_succ, ih, ← hblock]
      exact Finset.sum_Ico_consecutive f (by omega) (by omega)

/-- Flushing a run of `m ≤ 255` iterations started on a zeroed register
yields the exact count of satisfied positions in `[k, k + 16*m)`. -/
lemma simdIter1_flush (p : Nat → Bool) (m k : Nat) (hm : m ≤ 255) :
    vhaddq_u8 (simdIter1 p k m (fun _ => 0)) =
      ∑ j in Finset.Ico k (k + 16 * m), (if p j then 1 else 0) := by
  have hlane : ∀ l, simdIter1 p k m (fun _ => 0) l =
      ∑ i in Finset.range m, (if p (k + 16 * i + l) then 1 else 0) := by
    intro l
    have := simdIter1_lane p m k (fun _ => 0) l (by simpa using hm)
    simpa using this
  have hbound : ∀ l < 16, simdIter1 p k m (fun _ => 0) l ≤ 255 := by
    intro l _
    rw [hlane l]
    calc ∑ i in Finset.range m, (if p (k + 16 * i + l) then 1 else 0)
        ≤ ∑ _i in Finset.range m, 1 :=
          Finset.sum_le_sum (fun i _ => by split <;> omega)
      _ ≤ 255 := by simpa using hm
  rw [vhaddq_u8_exact _ hbound]
  calc ∑ l in Finset.range 16, simdIter1 p k m (fun _ => 0) l
      = ∑ l in Finset.range 16, ∑ i in Finset.range m,
          (if p (k + 16 * i + l) then 1 else 0) :=
        Finset.sum_congr rfl (fun l _ => hlane l)
    _ = ∑ i in Finset.range m, ∑ l in Finset.range 16,
          (if p (k + 16 * i + l) then 1 else 0) := Finset.sum_comm
    _ = ∑ j in Finset.Ico k (k + 16 * m), (if p j then 1 else 0) :=
        sum_blocks (fun j => if p j then 1 else 0) k m

/-- The outer unrolled loop adds the exact counts of the blocks it
consumes; its final position never passes `n` and stops only when fewer
than `16*255 + 1` positions remain. -/
lemma outerLoop_spec (p q : Nat → Bool) (n : Nat) :
    ∀ k sum len, k ≤ n →
      ∃ k', outerLoop p q n k sum len =
          (k', sum + ∑ j in Finset.Ico k k', (if p j then 1 else 0),
               len + ∑ j in Finset.Ico k k', (if q j then 1 else 0)) ∧
        k ≤ k' ∧ k' ≤ n ∧ n ≤ k' + 4080 := by
  intro k sum len
  induction k, sum, len using outerLoop.induct p q n with
  | case1 k sum len h ih =>
      intro _hk
      obtain ⟨k', hrec, hk1, hk2, hk3⟩ := ih (by omega)
      refine ⟨k', ?_, by omega, hk2, hk3⟩
      rw [outerLoop, dif_pos h]
      rw [hrec]
      simp only [simdIter2_eq_pair]
      rw [simdIter1_flush p 255 k (le_refl 255),
        simdIter1_flush q 255 k (le_refl 255)]
      have h4080 : k + 16 * 255 = k + 4080 := by norm_num
      rw [h4080]
      rw [add_assoc, add_assoc,
        Finset.sum_Ico_consecutive _ (by omega : k ≤ k + 4080) hk1,
        Finset.sum_Ico_consecutive _ (by omega : k ≤ k + 4080) hk1]
  | case2 k sum len h =>
      intro hk
      refine ⟨k, ?_, le_refl k, hk, by omega⟩
      rw [outerLoop, dif_neg h]
      simp

/-- Iteration count of the remainder loop. -/
def midCount (n k : Nat) : Nat :=
  if _h : k + 16 < n then midCount n (k + 16) + 1 else 0
termination_by n - k
decreasing_by omega

lemma midLoop_eq_iter (p q : Nat → Bool) (n : Nat) :
    ∀ k accs, midLoop p q n k accs =
      (k + 16 * midCount n k, simdIter2 p q k (midCount n k) accs) := by
  intro k
  induction k using midCount.induct n with
  | case1 k h ih =>
      intro accs
      rw [midLoop, dif_pos h, midCount, dif_pos h, ih]
      have : k + 16 * (midCount n (k + 16) + 1) = k + 16 + 16 * midCount n (k + 16) := by
        ring
      rw [this]
      rfl
  | case2 k h =>
      intro accs
      rw [midLoop, dif_neg h, midCount, dif_neg h]
      rfl

lemma midCount_zero_or_lt (n : Nat) :
    ∀ k, midCount n k = 0 ∨ k + 16 * midCount n k < n := by
  intro k
  induction k using midCount.induct n with
  | case1 k h ih =>
      right
      rw [midCount, dif_pos h]
      rcases ih with h0 | hlt
      · rw [h0] at *; omega
      · omega
  | case2 k h => left; rw [midCount, dif_neg h]

lemma midCount_le (n k : Nat) (h : n ≤ k + 4080) : midCount n k ≤ 254 := by
  rcases midCount_zero_or_lt n k with h0 | hlt
  · omega
  · omega

/-- The scalar tail adds the exact counts of the remaining positions. -/
lemma tailLoop_spec (p q : Nat → Bool) (n : Nat) :
    ∀ k sum len, tailLoop p q n k sum len =
      (sum + ∑ j in Finset.Ico k n, (if p j then 1 else 0),
       len + ∑ j in Finset.Ico k n, (if q j then 1 else 0)) := by
  intro k sum len
  induction k, sum, len using tailLoop.induct p q n with
  | case1 k sum len h ih =>
      simp only [dite_eq_ite] at ih
      rw [tailLoop, dif_pos h, ih,
        Finset.sum_eq_sum_Ico_succ_bot h, Finset.sum_eq_sum_Ico_succ_bot h]
      simp only [Prod.mk.injEq]
      omega
  | case2 k sum len h =>
      rw [tailLoop, dif_neg h]
      have he : Finset.Ico k n = ∅ := Finset.Ico_eq_empty (by omega)
      simp [he]

/-- The chunked SIMD scan computes exactly the scalar reference counts,
for every pair of position predicates and every residue count. -/
lemma chunkedScan_eq_scalarScan (p q : Nat → Bool) (n : Nat) :
    chunkedScan p q n = scalarScan p q n := by
  obtain ⟨k1, hout, _hk0, hk1n, hexit⟩ := outerLoop_spec p q n 0 0 0 (Nat.zero_le n)
  have hmle : midCount n k1 ≤ 254 := midCount_le n k1 hexit
  have hk2n : k1 + 16 * midCount n k1 ≤ n := by
    rcases midCount_zero_or_lt n k1 with h0 | hlt
    · omega
    · omega
  simp only [chunkedScan, hout, midLoop_eq_iter, simdIter2_eq_pair]
  rw [simdIter1_flush p _ k1 (by omega), simdIter1_flush q _ k1 (by omega),
    tailLoop_spec]
  unfold scalarScan
  have glue : ∀ f : Nat → Nat,
      (0 + ∑ j in Finset.Ico 0 k1, f j + ∑ j in Finset.Ico k1 (k1 + 16 * midCount n k1), f j)
        + ∑ j in Finset.Ico (k1 + 16 * midCount n k1) n, f j
      = ∑ j in Finset.range n, f j := by
    intro f
    rw [Finset.range_eq_Ico, zero_add, add_assoc,
      Finset.sum_Ico_consecutive f (by omega) hk2n,
      Finset.sum_Ico_consecutive f (by omega : (0:Nat) ≤ k1) hk1n]
  exact Prod.ext (glue _) (glue _)


/-! ## Alignment data model

The slice of `Alignment` (and of the `NEONCleaner` constructor state)
that the four operations consume. Character bytes are `Nat` codes
(`'-' = 45`, `'X' = 88`, `'N' = 78`). -/

structure MSA where
  /-- `originalNumberOfSequences`. -/
  nSeqs : Nat
  /-- `originalNumberOfResidues` (the scans always run over this range). -/
  nRes : Nat
  /-- `numberOfResidues`, the post-trim residue count; consumed only by
  the gap threshold of `calculateVectors`. -/
  numberOfResidues : Nat
  /-- whether `getAlignmentType() & SequenceTypes::AA` is set. -/
  isAA : Bool
  /-- `sequences[i][k]`, the byte of sequence `i` at residue `k`. -/
  seqs : Nat → Nat → Nat
  /-- `seqsName[i]`. -/
  seqsName : Nat → String
  /-- `saveSequences[i] != -1`: sequence `i` is kept. -/
  keepSeq : Nat → Bool
  /-- `skipResidues[k] == 0xFF` (built from `saveResidues[k] == -1` in the
  `NEONCleaner` constructor): residue `k` is masked out. -/
  skipRes : Nat → Bool

/-- The gap byte `'-'`. -/
def gapChar : Nat := 45

/-- The indetermination symbol: `'X'` for amino acids, `'N'` otherwise. -/
def indetChar (msa : MSA) : Nat := if msa.isAA then 88 else 78

/-- Gap-or-indeterminate test applied to one byte (the
`vceqq_u8(c, allgap) | vceqq_u8(c, allindet)` classification; the scalar
tails test the same two bytes). -/
def gapInd (msa : MSA) (c : Nat) : Bool :=
  (c == gapChar) || (c == indetChar msa)

/-- Per-position indicator of the `sum` counter of
`calculateMatrixIdentity`: both residues valid and equal. -/
def sumInd (msa : MSA) (i j k : Nat) : Bool :=
  !gapInd msa (msa.seqs i k) && !gapInd msa (msa.seqs j k) &&
    (msa.seqs i k == msa.seqs j k)

/-- Per-position indicator of the `length` counter: not both residues are
gap/indeterminate. -/
def lenInd (msa : MSA) (i j k : Nat) : Bool :=
  !(gapInd msa (msa.seqs i k) && gapInd msa (msa.seqs j k))

/-- Per-position indicator of the `dst` counter of
`calculateSeqIdentity`: not both gap/indeterminate and not masked out. -/
def dstInd (msa : MSA) (i j k : Nat) : Bool :=
  lenInd msa i j k && !msa.skipRes k

/-- Per-position indicator of the `hit` counter: `dst` test plus equal
residues. -/
def hitInd (msa : MSA) (i j k : Nat) : Bool :=
  dstInd msa i j k && (msa.seqs i k == msa.seqs j k)

/-! ## The two pairwise scans and their scalar references -/

/-- The `(sum, length)` pair of `calculateMatrixIdentity` for sequence
pair `(i, j)`, computed by the chunked SIMD scan (lines 77-130). -/
def pairCounts (msa : MSA) (i j : Nat) : Nat × Nat :=
  chunkedScan (sumInd msa i j) (lenInd msa i j) msa.nRes

/-- Scalar reference of `pairCounts`, per the spec. -/
def pairCountsScalar (msa : MSA) (i j : Nat) : Nat × Nat :=
  scalarScan (sumInd msa i j) (lenInd msa i j) msa.nRes

/-- The `(hit, dst)` pair of `calculateSeqIdentity` for sequence pair
`(i, j)`, computed by the chunked SIMD scan (lines 339-395). -/
def maskedCounts (msa : MSA) (i j : Nat) : Nat × Nat :=
  chunkedScan (hitInd msa i j) (dstInd msa i j) msa.nRes

/-- Scalar reference of `maskedCounts`, per the spec. -/
def maskedCountsScalar (msa : MSA) (i j : Nat) : Nat × Nat :=
  scalarScan (hitInd msa i j) (dstInd msa i j) msa.nRes

/-- The value stored by `calculateMatrixIdentity` for a pair:
`1.0F - (float)sum / length` (line 133). The source has no guard on
`length == 0`; in that case `sum = 0` as well (a position counted by
`sum` is also counted by `length`) and the IEEE division `0.0f/0` yields
NaN, modelled by `none`. -/
def pairDistance (msa : MSA) (i j : Nat) : Option ℚ :=
  if (pairCounts msa i j).2 = 0 then none
  else some (1 - ((pairCounts msa i j).1 : ℚ) / ((pairCounts msa i j).2 : ℚ))

/-- `pairDistance` recomputed from the scalar reference counts. -/
def pairDistanceScalar (msa : MSA) (i j : Nat) : Option ℚ :=
  if (pairCountsScalar msa i j).2 = 0 then none
  else some (1 - ((pairCountsScalar msa i j).1 : ℚ) /
    ((pairCountsScalar msa i j).2 : ℚ))

/-- The value stored by `calculateSeqIdentity` for a pair: `0` on the
guarded `dst == 0` path (line 404), else `(float)hit / dst` (line 408). -/
def maskedIdentity (msa : MSA) (i j : Nat) : ℚ :=
  if (maskedCounts msa i j).2 = 0 then 0
  else ((maskedCounts msa i j).1 : ℚ) / ((maskedCounts msa i j).2 : ℚ)

/-- `maskedIdentity` recomputed from the scalar reference counts. -/
def maskedIdentityScalar (msa : MSA) (i j : Nat) : ℚ :=
  if (maskedCountsScalar msa i j).2 = 0 then 0
  else ((maskedCountsScalar msa i j).1 : ℚ) / ((maskedCountsScalar msa i j).2 : ℚ)

/-- C4: for every alignment, every sequence pair and every residue count,
the SIMD-chunked pairwise scans (the unrolled 255-iteration blocks with
byte lane counters flushed by `vhaddq_u8`, the vector remainder loop and
the scalar tail) of both `calculateMatrixIdentity` and
`calculateSeqIdentity` produce exactly the counts of the naive
position-at-a-time scalar computation, and hence the derived stored
values (computed from equal integer counts by the same expression) are
identical. -/
theorem C4_chunked_scan_refines_scalar (msa : MSA) (i j : Nat) :
    pairCounts msa i j = pairCountsScalar msa i j ∧
    maskedCounts msa i j = maskedCountsScalar msa i j ∧
    pairDistance msa i j = pairDistanceScalar msa i j ∧
    maskedIdentity msa i j = maskedIdentityScalar msa i j := by
  have h1 : pairCounts msa i j = pairCountsScalar msa i j :=
    chunkedScan_eq_scalarScan _ _ _
  have h2 : maskedCounts msa i j = maskedCountsScalar msa i j :=
    chunkedScan_eq_scalarScan _ _ _
  refine ⟨h1, h2, ?_, ?_⟩
  · unfold pairDistance pairDistanceScalar
    rw [h1]
  · unfold maskedIdentity maskedIdentityScalar
    rw [h2]

/-! ## The identity matrix fill -/

/-- Write one float slot of an `N x N` matrix of (possibly uninitialised
or NaN) values; `none` stands for both "never written" and NaN. -/
def mset (m : Nat → Nat → Option ℚ) (a b : Nat) (v : Option ℚ) :
    Nat → Nat → Option ℚ :=
  fun x y => if x = a ∧ y = b then v else m x y

/-- The body of the pair loop of `calculateMatrixIdentity` (line 133):
for `i < j`, store the pair's distance into both `[i][j]` and `[j][i]`. -/
def pairWrite (msa : MSA) (m : Nat → Nat → Option ℚ) (i j : Nat) :
    Nat → Nat → Option ℚ :=
  if i < j then mset (mset m j i (pairDistance msa i j)) i j (pairDistance msa i j)
  else m

/-- The inner loop over `j = i+1 .. N-1` (traversed as the full range
with the `i < j` guard, which performs the same writes in the same
order). -/
def rowFill (msa : MSA) (m : Nat → Nat → Option ℚ) (i : Nat) :
    Nat → Nat → Option ℚ :=
  (List.range msa.nSeqs).foldl (fun m j => pairWrite msa m i j) m

/-- `calculateMatrixIdentity`: allocate the `N x N` matrix (uninitialised,
modelled by `none`) and run the pair double loop. The method memoizes: it
returns immediately when the matrix pointer is already set, and the
recomputed value is identical, so the embedding always denotes the filled
matrix. -/
def matrixIdentityFill (msa : MSA) : Nat → Nat → Option ℚ :=
  (List.range msa.nSeqs).foldl (fun m i => rowFill msa m i) (fun _ _ => none)

lemma pairWrite_get (msa : MSA) (m : Nat → Nat → Option ℚ) (i j x y : Nat) :
    pairWrite msa m i j x y =
      if i < j ∧ x = i ∧ y = j then pairDistance msa i j
      else if i < j ∧ x = j ∧ y = i then pairDistance msa i j
      else m x y := by
  unfold pairWrite mset
  by_cases hij : i < j
  · rw [if_pos hij]
    by_cases e1 : x = i ∧ y = j
    · have d1 : i < j ∧ x = i ∧ y = j := ⟨hij, e1.1, e1.2⟩
      rw [if_pos e1, if_pos d1]
    · have d1 : ¬(i < j ∧ x = i ∧ y = j) := fun c => e1 ⟨c.2.1, c.2.2⟩
      rw [if_neg e1, if_neg d1]
      by_cases e2 : x = j ∧ y = i
      · have d2 : i < j ∧ x = j ∧ y = i := ⟨hij, e2.1, e2.2⟩
        rw [if_pos e2, if_pos d2]
      · have d2 : ¬(i < j ∧ x = j ∧ y = i) := fun c => e2 ⟨c.2.1, c.2.2⟩
        rw [if_neg e2, if_neg d2]
  · have d1 : ¬(i < j ∧ x = i ∧ y = j) := fun c => hij c.1
    have d2 : ¬(i < j ∧ x = j ∧ y = i) := fun c => hij c.1
    rw [if_neg hij, if_neg d1, if_neg d2]

lemma rowFill_aux (msa : MSA) (i : Nat) :
    ∀ (L : List Nat) (m : Nat → Nat → Option ℚ) (x y : Nat),
      (L.foldl (fun m j => pairWrite msa m i j) m) x y =
        if x = i ∧ i < y ∧ y ∈ L then pairDistance msa i y
        else if y = i ∧ i < x ∧ x ∈ L then pairDistance msa i x
        else m x y := by
  intro L
  induction L with
  | nil => intro m x y; simp
  | cons j L ih =>
      intro m x y
      rw [List.foldl_cons, ih, pairWrite_get]
      simp only [List.mem_cons]
      by_cases c1 : x = i ∧ i < y ∧ y ∈ L
      · rw [if_pos c1, if_pos ⟨c1.1, c1.2.1, Or.inr c1.2.2⟩]
      · by_cases c2 : y = i ∧ i < x ∧ x ∈ L
        · have d1 : ¬(x = i ∧ i < y ∧ (y = j ∨ y ∈ L)) := by
            rintro ⟨hx, hy, _⟩
            omega
          rw [if_neg c1, if_pos c2, if_neg d1,
            if_pos ⟨c2.1, c2.2.1, Or.inr c2.2.2⟩]
        · rw [if_neg c1, if_neg c2]
          by_cases e1 : i < j ∧ x = i ∧ y = j
          · have d1 : x = i ∧ i < y ∧ (y = j ∨ y ∈ L) :=
              ⟨e1.2.1, by omega, Or.inl e1.2.2⟩
            rw [if_pos e1, if_pos d1, e1.2.2]
          · by_cases e2 : i < j ∧ x = j ∧ y = i
            · have d1 : ¬(x = i ∧ i < y ∧ (y = j ∨ y ∈ L)) := by
                rintro ⟨hx, hy, _⟩
                omega
              have d2 : y = i ∧ i < x ∧ (x = j ∨ x ∈ L) :=
                ⟨e2.2.2, by omega, Or.inl e2.2.1⟩
              rw [if_neg e1, if_pos e2, if_neg d1, if_pos d2, e2.2.1]
            · have d1 : ¬(x = i ∧ i < y ∧ (y = j ∨ y ∈ L)) := by
                rintro ⟨hx, hy, hj | hl⟩
                · exact e1 ⟨by omega, hx, hj⟩
                · exact c1 ⟨hx, hy, hl⟩
              have d2 : ¬(y = i ∧ i < x ∧ (x = j ∨ x ∈ L)) := by
                rintro ⟨hy, hx, hj | hl⟩
                · exact e2 ⟨by omega, hj, hy⟩
                · exact c2 ⟨hy, hx, hl⟩
              rw [if_neg e1, if_neg e2, if_neg d1, if_neg d2]

lemma rowFill_get (msa : MSA) (m : Nat → Nat → Option ℚ) (i x y : Nat) :
    rowFill msa m i x y =
      if x = i ∧ i < y ∧ y < msa.nSeqs then pairDistance msa i y
      else if y = i ∧ i < x ∧ x < msa.nSeqs then pairDistance msa i x
      else m x y := by
  unfold rowFill
  rw [rowFill_aux]
  simp only [List.mem_range]

lemma outerFill_aux (msa : MSA) :
    ∀ (R : List Nat) (m : Nat → Nat → Option ℚ) (x y : Nat),
      (R.foldl (fun m i => rowFill msa m i) m) x y =
        if x < y ∧ x ∈ R ∧ y < msa.nSeqs then pairDistance msa x y
        else if y < x ∧ y ∈ R ∧ x < msa.nSeqs then pairDistance msa y x
        else m x y := by
  intro R
  induction R with
  | nil => intro m x y; simp
  | cons i R ih =>
      intro m x y
      rw [List.foldl_cons, ih, rowFill_get]
      simp only [List.mem_cons]
      by_cases c1 : x < y ∧ x ∈ R ∧ y < msa.nSeqs
      · rw [if_pos c1, if_pos ⟨c1.1, Or.inr c1.2.1, c1.2.2⟩]
      · by_cases c2 : y < x ∧ y ∈ R ∧ x < msa.nSeqs
        · have d1 : ¬(x < y ∧ (x = i ∨ x ∈ R) ∧ y < msa.nSeqs) := by
            rintro ⟨hxy, _, _⟩
            omega
          rw [if_neg c1, if_pos c2, if_neg d1,
            if_pos ⟨c2.1, Or.inr c2.2.1, c2.2.2⟩]
        · rw [if_neg c1, if_neg c2]
          by_cases e1 : x = i ∧ i < y ∧ y < msa.nSeqs
          · have d1 : x < y ∧ (x = i ∨ x ∈ R) ∧ y < msa.nSeqs :=
              ⟨by omega, Or.inl e1.1, e1.2.2⟩
            rw [if_pos e1, if_pos d1, e1.1]
          · by_cases e2 : y = i ∧ i < x ∧ x < msa.nSeqs
            · have d1 : ¬(x < y ∧ (x = i ∨ x ∈ R) ∧ y < msa.nSeqs) := by
                rintro ⟨hxy, _, _⟩
                omega
              have d2 : y < x ∧ (y = i ∨ y ∈ R) ∧ x < msa.nSeqs :=
                ⟨by omega, Or.inl e2.1, e2.2.2⟩
              rw [if_neg e1, if_pos e2, if_neg d1, if_pos d2, e2.1]
            · have d1 : ¬(x < y ∧ (x = i ∨ x ∈ R) ∧ y < msa.nSeqs) := by
                rintro ⟨hxy, hi | hr, hy⟩
                · exact e1 ⟨hi, by omega, hy⟩
                · exact c1 ⟨hxy, hr, hy⟩
              have d2 : ¬(y < x ∧ (y = i ∨ y ∈ R) ∧ x < msa.nSeqs) := by
                rintro ⟨hxy, hi | hr, hx⟩
                · exact e2 ⟨hi, by omega, hx⟩
                · exact c2 ⟨hxy, hr, hx⟩
              rw [if_neg e1, if_neg e2, if_neg d1, if_neg d2]

/-- Closed form of the filled identity matrix: pair slots hold the pair's
distance (both mirror slots), everything else (diagonal, out of range) is
never written. -/
lemma matrixIdentityFill_get (msa : MSA) (x y : Nat) :
    matrixIdentityFill msa x y =
      if x < y ∧ x < msa.nSeqs ∧ y < msa.nSeqs then pairDistance msa x y
      else if y < x ∧ y < msa.nSeqs ∧ x < msa.nSeqs then pairDistance msa y x
      else none := by
  unfold matrixIdentityFill
  rw [outerFill_aux]
  simp only [List.mem_range]

/-! ## The masked sequence-identity builder (`calculateSeqIdentity`)

The imperative double loop interleaves two effects that never read each
other: writes into the caller-owned `identities` matrix, and diagnostics
appended on the `dst == 0` path. The embedding carries them as two folds
over the same iteration space. -/

/-- Initial state of `alig->identities` (lines 308-313): a row is
allocated for every kept sequence with its diagonal entry set to `0`; all
other slots (and all rows of dropped sequences) are uninitialised. -/
def identitiesInit (msa : MSA) : Nat → Nat → Option ℚ :=
  fun x y => if x = y ∧ x < msa.nSeqs ∧ msa.keepSeq x then some 0 else none

/-- Matrix effect of one pair iteration (lines 320-411): for a kept
`j > i`, store the pair's masked identity into `[i][j]` (lines 404/408)
and mirror it into `[j][i]` (line 411). -/
def seqIdStepM (msa : MSA) (i : Nat) (m : Nat → Nat → Option ℚ) (j : Nat) :
    Nat → Nat → Option ℚ :=
  if i < j ∧ msa.keepSeq j then
    mset (mset m i j (some (maskedIdentity msa i j))) j i
      (some (maskedIdentity msa i j))
  else m

/-- Diagnostic effect of one pair iteration (lines 397-403): on the
`dst == 0` path, report `NoResidueSequences` with both sequence names. -/
def seqIdStepR (msa : MSA) (i : Nat) (r : List (String × String)) (j : Nat) :
    List (String × String) :=
  if i < j ∧ msa.keepSeq j ∧ (maskedCounts msa i j).2 = 0 then
    r ++ [(msa.seqsName i, msa.seqsName j)]
  else r

/-- Inner pair loop of row `i` (matrix effect), traversed as the full
range with the `i < j` guard (same writes in the same order as
`j = i+1 .. N-1`). -/
def seqIdRowM (msa : MSA) (m : Nat → Nat → Option ℚ) (i : Nat) :
    Nat → Nat → Option ℚ :=
  (List.range msa.nSeqs).foldl (fun m j => seqIdStepM msa i m j) m

/-- Inner pair loop of row `i` (diagnostic effect). -/
def seqIdRowR (msa : MSA) (r : List (String × String)) (i : Nat) :
    List (String × String) :=
  (List.range msa.nSeqs).foldl (fun r j => seqIdStepR msa i r j) r

/-- The `identities` matrix after `calculateSeqIdentity` returns: rows of
dropped sequences are skipped entirely (line 317). -/
def identitiesMat (msa : MSA) : Nat → Nat → Option ℚ :=
  (List.range msa.nSeqs).foldl
    (fun m i => if msa.keepSeq i then seqIdRowM msa m i else m)
    (identitiesInit msa)

/-- The diagnostics emitted by `calculateSeqIdentity`, in order. -/
def identitiesReports (msa : MSA) : List (String × String) :=
  (List.range msa.nSeqs).foldl
    (fun r i => if msa.keepSeq i then seqIdRowR msa r i else r) []

lemma seqIdStepM_get (msa : MSA) (i : Nat) (m : Nat → Nat → Option ℚ)
    (j x y : Nat) :
    seqIdStepM msa i m j x y =
      if (i < j ∧ msa.keepSeq j) ∧ x = i ∧ y = j then some (maskedIdentity msa i j)
      else if (i < j ∧ msa.keepSeq j) ∧ x = j ∧ y = i then some (maskedIdentity msa i j)
      else m x y := by
  unfold seqIdStepM mset
  by_cases hg : i < j ∧ msa.keepSeq j
  · rw [if_pos hg]
    by_cases e2 : x = j ∧ y = i
    · have hne : ¬(x = i ∧ y = j) := by
        rintro ⟨hx, hy⟩
        have h1 := e2.1
        have h2 := e2.2
        have := hg.1
        omega
      have d1 : ¬((i < j ∧ msa.keepSeq j) ∧ x = i ∧ y = j) := fun c => hne c.2
      have d2 : (i < j ∧ msa.keepSeq j) ∧ x = j ∧ y = i := ⟨hg, e2.1, e2.2⟩
      rw [if_pos e2, if_neg d1, if_pos d2]
    · rw [if_neg e2]
      by_cases e1 : x = i ∧ y = j
      · have d1 : (i < j ∧ msa.keepSeq j) ∧ x = i ∧ y = j := ⟨hg, e1.1, e1.2⟩
        rw [if_pos e1, if_pos d1]
      · have d1 : ¬((i < j ∧ msa.keepSeq j) ∧ x = i ∧ y = j) := fun c => e1 c.2
        have d2 : ¬((i < j ∧ msa.keepSeq j) ∧ x = j ∧ y = i) := fun c => e2 c.2
        rw [if_neg e1, if_neg d1, if_neg d2]
  · have d1 : ¬((i < j ∧ msa.keepSeq j) ∧ x = i ∧ y = j) := fun c => hg c.1
    have d2 : ¬((i < j ∧ msa.keepSeq j) ∧ x = j ∧ y = i) := fun c => hg c.1
    rw [if_neg hg, if_neg d1, if_neg d2]

lemma seqIdRowM_aux (msa : MSA) (i : Nat) :
    ∀ (L : List Nat) (m : Nat → Nat → Option ℚ) (x y : Nat),
      (L.foldl (fun m j => seqIdStepM msa i m j) m) x y =
        if x = i ∧ i < y ∧ msa.keepSeq y ∧ y ∈ L then some (maskedIdentity msa i y)
        else if y = i ∧ i < x ∧ msa.keepSeq x ∧ x ∈ L then some (maskedIdentity msa i x)
        else m x y := by
  intro L
  induction L with
  | nil => intro m x y; simp
  | cons j L ih =>
      intro m x y
      rw [List.foldl_cons, ih, seqIdStepM_get]
      simp only [List.mem_cons]
      by_cases c1 : x = i ∧ i < y ∧ msa.keepSeq y ∧ y ∈ L
      · rw [if_pos c1, if_pos ⟨c1.1, c1.2.1, c1.2.2.1, Or.inr c1.2.2.2⟩]
      · by_cases c2 : y = i ∧ i < x ∧ msa.keepSeq x ∧ x ∈ L
        · have d1 : ¬(x = i ∧ i < y ∧ msa.keepSeq y ∧ (y = j ∨ y ∈ L)) := by
            rintro ⟨hx, hy, _, _⟩
            have := c2.1
            omega
          rw [if_neg c1, if_pos c2, if_neg d1,
            if_pos ⟨c2.1, c2.2.1, c2.2.2.1, Or.inr c2.2.2.2⟩]
        · rw [if_neg c1, if_neg c2]
          by_cases e1 : (i < j ∧ msa.keepSeq j) ∧ x = i ∧ y = j
          · have d1 : x = i ∧ i < y ∧ msa.keepSeq y ∧ (y = j ∨ y ∈ L) := by
              refine ⟨e1.2.1, by have := e1.1.1; have := e1.2.2; omega, ?_, Or.inl e1.2.2⟩
              rw [e1.2.2]
              exact e1.1.2
            rw [if_pos e1, if_pos d1, e1.2.2]
          · by_cases e2 : (i < j ∧ msa.keepSeq j) ∧ x = j ∧ y = i
            · have d1 : ¬(x = i ∧ i < y ∧ msa.keepSeq y ∧ (y = j ∨ y ∈ L)) := by
                rintro ⟨hx, hy, _, _⟩
                have := e2.2.2
                omega
              have d2 : y = i ∧ i < x ∧ msa.keepSeq x ∧ (x = j ∨ x ∈ L) := by
                refine ⟨e2.2.2, by have := e2.1.1; have := e2.2.1; omega, ?_, Or.inl e2.2.1⟩
                rw [e2.2.1]
                exact e2.1.2
              rw [if_neg e1, if_pos e2, if_neg d1, if_pos d2, e2.2.1]
            · have d1 : ¬(x = i ∧ i < y ∧ msa.keepSeq y ∧ (y = j ∨ y ∈ L)) := by
                rintro ⟨hx, hy, hk, hj | hl⟩
                · exact e1 ⟨⟨by omega, by rw [← hj]; exact hk⟩, hx, hj⟩
                · exact c1 ⟨hx, hy, hk, hl⟩
              have d2 : ¬(y = i ∧ i < x ∧ msa.keepSeq x ∧ (x = j ∨ x ∈ L)) := by
                rintro ⟨hy, hx, hk, hj | hl⟩
                · exact e2 ⟨⟨by omega, by rw [← hj]; exact hk⟩, hj, hy⟩
                · exact c2 ⟨hy, hx, hk, hl⟩
              rw [if_neg e1, if_neg e2, if_neg d1, if_neg d2]

lemma seqIdRowM_get (msa : MSA) (m : Nat → Nat → Option ℚ) (i x y : Nat) :
    seqIdRowM msa m i x y =
      if x = i ∧ i < y ∧ msa.keepSeq y ∧ y < msa.nSeqs then some (maskedIdentity msa i y)
      else if y = i ∧ i < x ∧ msa.keepSeq x ∧ x < msa.nSeqs then some (maskedIdentity msa i x)
      else m x y := by
  unfold seqIdRowM
  rw [seqIdRowM_aux]
  simp only [List.mem_range]

lemma identitiesMat_aux (msa : MSA) :
    ∀ (R : List Nat) (m : Nat → Nat → Option ℚ) (x y : Nat),
      (R.foldl (fun m i => if msa.keepSeq i then seqIdRowM msa m i else m) m) x y =
        if x < y ∧ msa.keepSeq x ∧ msa.keepSeq y ∧ x ∈ R ∧ y < msa.nSeqs then
          some (maskedIdentity msa x y)
        else if y < x ∧ msa.keepSeq y ∧ msa.keepSeq x ∧ y ∈ R ∧ x < msa.nSeqs then
          some (maskedIdentity msa y x)
        else m x y := by
  intro R
  induction R with
  | nil => intro m x y; simp
  | cons i R ih =>
      intro m x y
      rw [List.foldl_cons, ih]
      simp only [List.mem_cons]
      by_cases c1 : x < y ∧ msa.keepSeq x ∧ msa.keepSeq y ∧ x ∈ R ∧ y < msa.nSeqs
      · rw [if_pos c1, if_pos ⟨c1.1, c1.2.1, c1.2.2.1, Or.inr c1.2.2.2.1, c1.2.2.2.2⟩]
      · by_cases c2 : y < x ∧ msa.keepSeq y ∧ msa.keepSeq x ∧ y ∈ R ∧ x < msa.nSeqs
        · have d1 : ¬(x < y ∧ msa.keepSeq x ∧ msa.keepSeq y ∧ (x = i ∨ x ∈ R) ∧
              y < msa.nSeqs) := by
            rintro ⟨hxy, _, _, _, _⟩
            have := c2.1
            omega
          rw [if_neg c1, if_pos c2, if_neg d1,
            if_pos ⟨c2.1, c2.2.1, c2.2.2.1, Or.inr c2.2.2.2.1, c2.2.2.2.2⟩]
        · rw [if_neg c1, if_neg c2]
          by_cases hk : msa.keepSeq i
          · rw [if_pos hk, seqIdRowM_get]
            by_cases e1 : x = i ∧ i < y ∧ msa.keepSeq y ∧ y < msa.nSeqs
            · have d1 : x < y ∧ msa.keepSeq x ∧ msa.keepSeq y ∧ (x = i ∨ x ∈ R) ∧
                  y < msa.nSeqs := by
                refine ⟨by have := e1.1; have := e1.2.1; omega, ?_, e1.2.2.1,
                  Or.inl e1.1, e1.2.2.2⟩
                rw [e1.1]
                exact hk
              rw [if_pos e1, if_pos d1, e1.1]
            · by_cases e2 : y = i ∧ i < x ∧ msa.keepSeq x ∧ x < msa.nSeqs
              · have d1 : ¬(x < y ∧ msa.keepSeq x ∧ msa.keepSeq y ∧ (x = i ∨ x ∈ R) ∧
                    y < msa.nSeqs) := by
                  rintro ⟨hxy, _, _, _, _⟩
                  have := e2.1
                  have := e2.2.1
                  omega
                have d2 : y < x ∧ msa.keepSeq y ∧ msa.keepSeq x ∧ (y = i ∨ y ∈ R) ∧
                    x < msa.nSeqs := by
                  refine ⟨by have := e2.1; have := e2.2.1; omega, ?_, e2.2.2.1,
                    Or.inl e2.1, e2.2.2.2⟩
                  rw [e2.1]
                  exact hk
                rw [if_neg e1, if_pos e2, if_neg d1, if_pos d2, e2.1]
              · have d1 : ¬(x < y ∧ msa.keepSeq x ∧ msa.keepSeq y ∧ (x = i ∨ x ∈ R) ∧
                    y < msa.nSeqs) := by
                  rintro ⟨hxy, hkx, hky, hi | hr, hy⟩
                  · exact e1 ⟨hi, by omega, hky, hy⟩
                  · exact c1 ⟨hxy, hkx, hky, hr, hy⟩
                have d2 : ¬(y < x ∧ msa.keepSeq y ∧ msa.keepSeq x ∧ (y = i ∨ y ∈ R) ∧
                    x < msa.nSeqs) := by
                  rintro ⟨hxy, hky, hkx, hi | hr, hx⟩
                  · exact e2 ⟨hi, by omega, hkx, hx⟩
                  · exact c2 ⟨hxy, hky, hkx, hr, hx⟩
                rw [if_neg e1, if_neg e2, if_neg d1, if_neg d2]
          · rw [if_neg hk]
            have d1 : ¬(x < y ∧ msa.keepSeq x ∧ msa.keepSeq y ∧ (x = i ∨ x ∈ R) ∧
                y < msa.nSeqs) := by
              rintro ⟨hxy, hkx, hky, hi | hr, hy⟩
              · exact hk (by rw [← hi]; exact hkx)
              · exact c1 ⟨hxy, hkx, hky, hr, hy⟩
            have d2 : ¬(y < x ∧ msa.keepSeq y ∧ msa.keepSeq x ∧ (y = i ∨ y ∈ R) ∧
                x < msa.nSeqs) := by
              rintro ⟨hxy, hky, hkx, hi | hr, hx⟩
              · exact hk (by rw [← hi]; exact hky)
              · exact c2 ⟨hxy, hky, hkx, hr, hx⟩
            rw [if_neg d1, if_neg d2]

/-- Closed form of the `identities` matrix: every kept pair holds its
masked identity (both mirror slots), kept diagonals hold 0, everything
else is uninitialised. -/
lemma identitiesMat_get (msa : MSA) (x y : Nat) :
    identitiesMat msa x y =
      if x < y ∧ msa.keepSeq x ∧ msa.keepSeq y ∧ x < msa.nSeqs ∧ y < msa.nSeqs then
        some (maskedIdentity msa x y)
      else if y < x ∧ msa.keepSeq y ∧ msa.keepSeq x ∧ y < msa.nSeqs ∧ x < msa.nSeqs then
        some (maskedIdentity msa y x)
      else identitiesInit msa x y := by
  unfold identitiesMat
  rw [identitiesMat_aux]
  simp only [List.mem_range]

/-! ## Diagnostics of the masked builder -/

lemma seqIdStepR_subset (msa : MSA) (i : Nat) (r : List (String × String)) (j : Nat) :
    r ⊆ seqIdStepR msa i r j := by
  unfold seqIdStepR
  split
  · exact List.subset_append_left _ _
  · exact List.Subset.refl _

lemma seqIdRowR_fold_subset (msa : MSA) (i : Nat) :
    ∀ (L : List Nat) (r : List (String × String)),
      r ⊆ L.foldl (fun r j => seqIdStepR msa i r j) r := by
  intro L
  induction L with
  | nil => intro r; exact List.Subset.refl r
  | cons j L ih =>
      intro r
      rw [List.foldl_cons]
      exact (seqIdStepR_subset msa i r j).trans (ih _)

lemma seqIdRowR_adds (msa : MSA) (i j : Nat) (hg1 : i < j)
    (hg2 : msa.keepSeq j = true) (hg3 : (maskedCounts msa i j).2 = 0) :
    ∀ (L : List Nat) (r : List (String × String)), j ∈ L →
      (msa.seqsName i, msa.seqsName j) ∈
        L.foldl (fun r a => seqIdStepR msa i r a) r := by
  intro L
  induction L with
  | nil => intro r h; simp at h
  | cons a L ih =>
      intro r hm
      rw [List.foldl_cons]
      rcases List.mem_cons.mp hm with rfl | hL
      · apply seqIdRowR_fold_subset
        unfold seqIdStepR
        rw [if_pos ⟨hg1, hg2, hg3⟩]
        exact List.mem_append_right _ (by simp)
      · exact ih _ hL

lemma identitiesReports_outer_subset (msa : MSA) :
    ∀ (R : List Nat) (r : List (String × String)),
      r ⊆ R.foldl (fun r a => if msa.keepSeq a then seqIdRowR msa r a else r) r := by
  intro R
  induction R with
  | nil => intro r; exact List.Subset.refl r
  | cons a R ih =>
      intro r
      rw [List.foldl_cons]
      refine List.Subset.trans ?_ (ih _)
      by_cases hk : msa.keepSeq a
      · rw [if_pos hk]
        unfold seqIdRowR
        exact seqIdRowR_fold_subset msa a _ r
      · rw [if_neg hk]
        exact List.Subset.refl r

lemma identitiesReports_adds (msa : MSA) (i j : Nat) (hij : i < j)
    (hi : i < msa.nSeqs) (hj : j < msa.nSeqs) (hki : msa.keepSeq i = true)
    (hkj : msa.keepSeq j = true) (hdst : (maskedCounts msa i j).2 = 0) :
    (msa.seqsName i, msa.seqsName j) ∈ identitiesReports msa := by
  unfold identitiesReports
  have aux : ∀ (R : List Nat) (r : List (String × String)), i ∈ R →
      (msa.seqsName i, msa.seqsName j) ∈
        R.foldl (fun r a => if msa.keepSeq a then seqIdRowR msa r a else r) r := by
    intro R
    induction R with
    | nil => intro r h; simp at h
    | cons a R ih =>
        intro r hm
        rw [List.foldl_cons]
        rcases List.mem_cons.mp hm with rfl | hR
        · apply identitiesReports_outer_subset
          rw [if_pos hki]
          unfold seqIdRowR
          exact seqIdRowR_adds msa i j hij hkj hdst _ r (List.mem_range.mpr hj)
        · exact ih _ hR
  exact aux _ [] (List.mem_range.mpr hi)

/-! ## Symmetry and the degenerate-pair behaviour -/

/-- Bridges from the SIMD counts to the scalar reference counts, used
whenever a concrete entry must be evaluated. -/
lemma pairCounts_eq_scalar (msa : MSA) (i j : Nat) :
    pairCounts msa i j = pairCountsScalar msa i j :=
  chunkedScan_eq_scalarScan _ _ _

lemma maskedCounts_eq_scalar (msa : MSA) (i j : Nat) :
    maskedCounts msa i j = maskedCountsScalar msa i j :=
  chunkedScan_eq_scalarScan _ _ _

lemma ite_swap {α : Type} (C1 C2 : Prop) [Decidable C1] [Decidable C2]
    (hnot : ¬(C1 ∧ C2)) (a b c c' : α) (hc : c = c') :
    (if C1 then a else if C2 then b else c) =
      (if C2 then b else if C1 then a else c') := by
  by_cases h1 : C1
  · rw [if_pos h1, if_neg (fun h2 => hnot ⟨h1, h2⟩), if_pos h1]
  · rw [if_neg h1]
    by_cases h2 : C2
    · rw [if_pos h2, if_pos h2]
    · rw [if_neg h2, if_neg h2, if_neg h1, hc]

/-- C6: both matrices are symmetric — for every pair of distinct
original sequence indices the Identity Matrix holds equal values in the
two mirror slots, and likewise the masked `identities` matrix for every
pair of distinct kept sequences; each pair value is computed once and
written to both slots. -/
theorem C6_identity_matrices_symmetric (msa : MSA) (i j : Nat) (hij : i ≠ j)
    (_hi : i < msa.nSeqs) (_hj : j < msa.nSeqs) :
    matrixIdentityFill msa i j = matrixIdentityFill msa j i ∧
    (msa.keepSeq i = true → msa.keepSeq j = true →
      identitiesMat msa i j = identitiesMat msa j i) := by
  refine ⟨?_, fun _ _ => ?_⟩
  · rw [matrixIdentityFill_get, matrixIdentityFill_get]
    exact ite_swap _ _ (by rintro ⟨⟨h1, _⟩, ⟨h2, _⟩⟩; omega) _ _ _ _ rfl
  · rw [identitiesMat_get, identitiesMat_get]
    refine ite_swap _ _ (by rintro ⟨⟨h1, _⟩, ⟨h2, _⟩⟩; omega) _ _ _ _ ?_
    unfold identitiesInit
    rw [if_neg (by rintro ⟨h, _⟩; omega), if_neg (by rintro ⟨h, _⟩; omega)]

/-- A concrete 2-sequence, 2-residue nucleotide alignment (`"AC"`,
`"AA"`), used as witness input. -/
def msaSmall : MSA where
  nSeqs := 2
  nRes := 2
  numberOfResidues := 2
  isAA := false
  seqs := fun i k => if i = 0 then (if k = 0 then 65 else 67) else 65
  seqsName := fun i => if i = 0 then "s0" else "s1"
  keepSeq := fun _ => true
  skipRes := fun _ => false

/-- Witness for C6 on `msaSmall`. -/
theorem C6_identity_matrices_symmetric_witness :
    matrixIdentityFill msaSmall 0 1 = matrixIdentityFill msaSmall 1 0 ∧
    identitiesMat msaSmall 0 1 = identitiesMat msaSmall 1 0 := by
  have h := C6_identity_matrices_symmetric msaSmall 0 1 (by decide) (by decide)
    (by decide)
  exact ⟨h.1, h.2 (by decide) (by decide)⟩

/-- C2 (amended): a sequence pair with zero comparable positions is
handled by the guarded `dst == 0` path of the masked builder — identity
set to the sentinel 0 and a diagnostic naming both sequences emitted,
without failing the computation — while `calculateMatrixIdentity`, whose
division is unguarded, stores the IEEE NaN produced by `1 - 0/0`
(modelled `none`), not the sentinel. -/
theorem C2_degenerate_pair (msa : MSA) (i j : Nat) (hij : i < j)
    (hj : j < msa.nSeqs) (hki : msa.keepSeq i = true)
    (hkj : msa.keepSeq j = true)
    (hdst : (maskedCountsScalar msa i j).2 = 0)
    (hlen : (pairCountsScalar msa i j).2 = 0) :
    identitiesMat msa i j = some 0 ∧
    (msa.seqsName i, msa.seqsName j) ∈ identitiesReports msa ∧
    matrixIdentityFill msa i j = none := by
  have hdst' : (maskedCounts msa i j).2 = 0 := by
    rw [maskedCounts_eq_scalar]; exact hdst
  have hlen' : (pairCounts msa i j).2 = 0 := by
    rw [pairCounts_eq_scalar]; exact hlen
  refine ⟨?_, ?_, ?_⟩
  · rw [identitiesMat_get, if_pos ⟨hij, hki, hkj, by omega, hj⟩]
    unfold maskedIdentity
    rw [if_pos hdst']
  · exact identitiesReports_adds msa i j hij (by omega) hj hki hkj hdst'
  · rw [matrixIdentityFill_get, if_pos ⟨hij, by omega, hj⟩]
    unfold pairDistance
    rw [if_pos hlen']

/-- The degenerate nucleotide alignment `"-"` versus `"N"`: gap against
indeterminate at the single residue, so the pair has zero comparable
positions. -/
def msaDegen : MSA where
  nSeqs := 2
  nRes := 1
  numberOfResidues := 1
  isAA := false
  seqs := fun i _ => if i = 0 then 45 else 78
  seqsName := fun i => if i = 0 then "s0" else "s1"
  keepSeq := fun _ => true
  skipRes := fun _ => false

/-- Witness for C2 (amended) at `msaDegen`. -/
theorem C2_degenerate_pair_witness :
    identitiesMat msaDegen 0 1 = some 0 ∧
    (msaDegen.seqsName 0, msaDegen.seqsName 1) ∈ identitiesReports msaDegen ∧
    matrixIdentityFill msaDegen 0 1 = none :=
  C2_degenerate_pair msaDegen 0 1 (by decide) (by decide) (by decide) (by decide)
    (by decide) (by decide)

/-- Counterexample to C2 as frozen: on the gap-versus-indeterminate pair
`"-"` / `"N"` the Pairwise Identity Matrix Builder does **not** store the
sentinel 0 — the unguarded `1.0F - 0.0f/0` division stores NaN
(modelled `none`) — even though the pair has zero comparable positions. -/
lemma matrixIdentityFill_degen : matrixIdentityFill msaDegen 0 1 = none := by
  rw [matrixIdentityFill_get,
    if_pos (by decide : (0 : Nat) < 1 ∧ 0 < msaDegen.nSeqs ∧ 1 < msaDegen.nSeqs)]
  unfold pairDistance
  rw [if_pos (by rw [pairCounts_eq_scalar]; decide)]

theorem C2_counterexample :
    (pairCountsScalar msaDegen 0 1).2 = 0 ∧
    ¬ matrixIdentityFill msaDegen 0 1 = some 0 := by
  constructor
  · decide
  · intro h
    rw [matrixIdentityFill_degen] at h
    exact Option.noConfusion h

/-! ## The column conservation scorer (`calculateVectors`)

Float values flowing through the scorer are `Option ℚ` (resp. `Option ℝ`
once `exp` enters), `none` standing for IEEE NaN, which the embedding
propagates exactly where the hardware would: through `+`, `*`, `/` and
into the failed `<`/`==` comparisons. -/

/-- The slice of `similarityMatrix` consumed: `vhash` maps `letter - 'A'`
to a residue-class index or the `-1` sentinel; `distMat` is the
class-by-class distance table (opaque caller data, any rationals). -/
structure SimMat where
  vhash : Nat → Int
  distMat : Int → Int → ℚ

/-- `utils::toUpper`. -/
def toUpper (c : Nat) : Nat := if 97 ≤ c ∧ c ≤ 122 then c - 32 else c

/-- The two fatal symbol diagnostics of the scorer. -/
inductive VErr where
  | incorrectSymbol (letter : Nat)
  | undefinedSymbol (letter : Nat)
deriving DecidableEq

/-- IEEE float addition with NaN propagation. -/
def fqAdd : Option ℚ → Option ℚ → Option ℚ
  | some a, some b => some (a + b)
  | _, _ => none

/-- IEEE float multiplication with NaN propagation (no infinities arise:
every operand is a finite table value or a finite identity). -/
def fqMul : Option ℚ → Option ℚ → Option ℚ
  | some a, some b => some (a * b)
  | _, _ => none

/-- The column-buffer loop (lines 197-213): classify every sequence's
residue of column `i` as gapped or as a residue-class index, failing on
the first character that is not an uppercase letter (`IncorrectSymbol`)
or is unmapped in the table (`UndefinedSymbol`). The source hoists the
`colgap`/`colnum` buffers out of the column loop; a pair-loop read of
`colnum[j]` happens only under `colgap[j] == 0`, which is freshly written
together with `colnum[j]` in the same column, so per-column fresh buffers
are observationally identical. -/
def colClassify (msa : MSA) (sim : SimMat) (i : Nat) :
    Except VErr ((Nat → Bool) × (Nat → Int)) :=
  (List.range msa.nSeqs).foldl
    (fun st j =>
      match st with
      | .error e => .error e
      | .ok cgcn =>
          if toUpper (msa.seqs j i) = indetChar msa ∨
              toUpper (msa.seqs j i) = gapChar then
            .ok (fun a => if a = j then true else cgcn.1 a, cgcn.2)
          else if toUpper (msa.seqs j i) < 65 ∨ 90 < toUpper (msa.seqs j i) then
            .error (.incorrectSymbol (toUpper (msa.seqs j i)))
          else if sim.vhash (toUpper (msa.seqs j i) - 65) = -1 then
            .error (.undefinedSymbol (toUpper (msa.seqs j i)))
          else
            .ok (fun a => if a = j then false else cgcn.1 a,
                 fun a => if a = j then sim.vhash (toUpper (msa.seqs j i) - 65)
                   else cgcn.2 a))
    (.ok (fun _ => false, fun _ => 0))

/-- The pair accumulation of one column (lines 216-238): over pairs of
non-gapped sequences `j < k` (inner loop modelled over the full range
with the `k ≤ j` guard), `num += identity[j][k] * distMat[num_j][num_k]`
and `den += identity[j][k]`. -/
def colNumDen (msa : MSA) (sim : SimMat) (idMat : Nat → Nat → Option ℚ)
    (cg : Nat → Bool) (cn : Nat → Int) : Option ℚ × Option ℚ :=
  (List.range msa.nSeqs).foldl
    (fun nd j =>
      if cg j then nd
      else
        (List.range msa.nSeqs).foldl
          (fun nd k =>
            if k ≤ j then nd
            else if cg k then nd
            else (fqAdd nd.1 (fqMul (idMat j k) (some (sim.distMat (cn j) (cn k)))),
                  fqAdd nd.2 (idMat j k)))
          nd)
    (some 0, some 0)

/-- The per-column score (lines 241-257): `MDK = 0` when `den == 0` (an
IEEE comparison, false when `den` is NaN); otherwise `Q = num/den`,
clamped to `1` when `Q < 0` (the comparison is false when `Q` is NaN, in
which case `exp(-Q)` is NaN again) and `exp(-Q)` otherwise. -/
noncomputable def colMDK (nd : Option ℚ × Option ℚ) : Option ℝ :=
  if nd.2 = some 0 then some 0
  else
    match nd.1, nd.2 with
    | some nu, some de =>
        if nu / de < 0 then some 1 else some (Real.exp (-((nu / de : ℚ) : ℝ)))
    | _, _ => none

/-- The `cutByGap` pre-zeroing guard (lines 177/190):
`gaps[i] >= 0.8F * numberOfResidues`. `0.8F` is `0.8 + 0.2 * 2^-24`; for
every residue count below `2^24` the float product stays within half an
ulp of the exact `0.8 * numberOfResidues`, so comparing the integer
`gaps[i]` against it coincides with the exact rational comparison. -/
def gapCutColumn (msa : MSA) (gaps : Nat → Int) (i : Nat) : Prop :=
  (4 : ℚ) / 5 * (msa.numberOfResidues : ℚ) ≤ ((gaps i : ℤ) : ℚ)

instance (msa : MSA) (gaps : Nat → Int) (i : Nat) :
    Decidable (gapCutColumn msa gaps i) := by
  unfold gapCutColumn
  infer_instance

/-- Outcome of one column of the scorer loop (lines 188-257): the
pre-zeroed gap-cut short circuit, the first bad-symbol error, or the
value written into `MDK[i]`. -/
noncomputable def colOutcome (msa : MSA) (sim : SimMat) (cutByGap : Bool)
    (gaps : Nat → Int) (i : Nat) : Except VErr (Option ℝ) :=
  if cutByGap = true ∧ gapCutColumn msa gaps i then .ok (some 0)
  else
    match colClassify msa sim i with
    | .error e => .error e
    | .ok cgcn =>
        .ok (colMDK (colNumDen msa sim (matrixIdentityFill msa) cgcn.1 cgcn.2))

/-- The value a successfully processed column stores into `MDK[i]`. -/
noncomputable def colValue (msa : MSA) (sim : SimMat) (cutByGap : Bool)
    (gaps : Nat → Int) (i : Nat) : Option ℝ :=
  match colOutcome msa sim cutByGap gaps i with
  | .ok v => v
  | .error _ => none

/-- The `(num, den)` pair of column `i` as accumulated by the scorer,
when the column classifies cleanly. -/
noncomputable def columnNumDen (msa : MSA) (sim : SimMat) (i : Nat) :
    Option (Option ℚ × Option ℚ) :=
  match colClassify msa sim i with
  | .error _ => none
  | .ok cgcn => some (colNumDen msa sim (matrixIdentityFill msa) cgcn.1 cgcn.2)

/-- One iteration of the scorer's column loop, threading the first error
(after which nothing is written any more — the source returns) and the
`MDK` buffer. -/
noncomputable def vecStep (msa : MSA) (sim : SimMat) (cutByGap : Bool)
    (gaps : Nat → Int) (st : Option VErr × (Nat → Option ℝ)) (i : Nat) :
    Option VErr × (Nat → Option ℝ) :=
  match st.1 with
  | some _ => st
  | none =>
      match colOutcome msa sim cutByGap gaps i with
      | .error e => (some e, st.2)
      | .ok v => (none, fun a => if a = i then v else st.2 a)

/-- Result state of `calculateVectors`: the returned flag, the emitted
diagnostic, the final content of the caller-visible `MDK` buffer, and
whether the memoized `matrixIdentity` is still allocated on return. -/
structure VecRun where
  ok : Bool
  err : Option VErr
  mdk : Nat → Option ℝ
  matrixAlive : Bool

/-- `calculateVectors` (lines 138-266). `mdk0` is the `MDK` buffer
content on entry and `preAlive` whether `matrixIdentity` was already
memoized. With no similarity matrix the call fails before touching
anything (line 145). Otherwise the identity matrix is computed if absent
(recomputing yields the same values, so the embedding always denotes the
filled matrix), the column loop runs with an early `return false` on the
first bad symbol — the matrix is **not** freed there — and only a
complete pass frees the matrix (lines 260-263) and returns true. -/
noncomputable def calculateVectors (msa : MSA) (sim? : Option SimMat)
    (cutByGap : Bool) (gaps : Nat → Int) (preAlive : Bool)
    (mdk0 : Nat → Option ℝ) : VecRun :=
  match sim? with
  | none => { ok := false, err := none, mdk := mdk0, matrixAlive := preAlive }
  | some sim =>
      match (List.range msa.nRes).foldl (vecStep msa sim cutByGap gaps)
          ((none : Option VErr), mdk0) with
      | (some e, mdk) => { ok := false, err := some e, mdk := mdk, matrixAlive := true }
      | (none, mdk) => { ok := true, err := none, mdk := mdk, matrixAlive := false }

/-! ### Characterising the scorer's column loop -/

lemma vecFold_stuck (msa : MSA) (sim : SimMat) (cutByGap : Bool)
    (gaps : Nat → Int) :
    ∀ (L : List Nat) (e : VErr) (m : Nat → Option ℝ),
      L.foldl (vecStep msa sim cutByGap gaps) (some e, m) = (some e, m) := by
  intro L
  induction L with
  | nil => intros; rfl
  | cons i L ih =>
      intro e m
      rw [List.foldl_cons]
      exact ih e m

lemma vecFold_ok_prefix (msa : MSA) (sim : SimMat) (cutByGap : Bool)
    (gaps : Nat → Int) :
    ∀ (L : List Nat) (m : Nat → Option ℝ),
      (∀ i ∈ L, ∃ v, colOutcome msa sim cutByGap gaps i = .ok v) →
      L.foldl (vecStep msa sim cutByGap gaps) (none, m) =
        (none, fun a => if a ∈ L then colValue msa sim cutByGap gaps a else m a) := by
  intro L
  induction L with
  | nil =>
      intro m _
      simp
  | cons i L ih =>
      intro m hok
      obtain ⟨v, hv⟩ := hok i (List.mem_cons_self i L)
      rw [List.foldl_cons]
      have hstep : vecStep msa sim cutByGap gaps (none, m) i =
          (none, fun a => if a = i then v else m a) := by
        unfold vecStep
        simp only [hv]
      rw [hstep, ih _ (fun j hj => hok j (List.mem_cons_of_mem i hj))]
      simp only [Prod.mk.injEq, true_and]
      funext a
      by_cases haL : a ∈ L
      · rw [if_pos haL, if_pos (List.mem_cons_of_mem i haL)]
      · rw [if_neg haL]
        by_cases hai : a = i
        · subst hai
          rw [if_pos rfl, if_pos (List.mem_cons_self a L)]
          unfold colValue
          rw [hv]
        · rw [if_neg hai, if_neg (by
            intro hm
            rcases List.mem_cons.mp hm with h | h
            · exact hai h
            · exact haL h)]

lemma vecFold_untouched (msa : MSA) (sim : SimMat) (cutByGap : Bool)
    (gaps : Nat → Int) (i : Nat) :
    ∀ (L : List Nat) (st : Option VErr × (Nat → Option ℝ)),
      (∀ j ∈ L, j ≠ i) →
      (L.foldl (vecStep msa sim cutByGap gaps) st).2 i = st.2 i := by
  intro L
  induction L with
  | nil => intro st _; rfl
  | cons j L ih =>
      intro st hne
      rw [List.foldl_cons, ih _ (fun a ha => hne a (List.mem_cons_of_mem j ha))]
      obtain ⟨oe, m⟩ := st
      cases oe with
      | some e => rfl
      | none =>
          unfold vecStep
          cases ho : colOutcome msa sim cutByGap gaps j with
          | error e => simp only [ho]
          | ok v =>
              simp only [ho]
              rw [if_neg (fun h => (hne j (List.mem_cons_self j L)) h.symm)]

lemma calculateVectors_mdk_eq (msa : MSA) (sim : SimMat) (cutByGap : Bool)
    (gaps : Nat → Int) (preAlive : Bool) (mdk0 : Nat → Option ℝ) :
    (calculateVectors msa (some sim) cutByGap gaps preAlive mdk0).mdk =
      ((List.range msa.nRes).foldl (vecStep msa sim cutByGap gaps)
        (none, mdk0)).2 := by
  simp only [calculateVectors]
  rcases hr : (List.range msa.nRes).foldl (vecStep msa sim cutByGap gaps)
    (none, mdk0) with ⟨oe, m⟩
  cases oe <;> rfl

/-- A column reached before any error holds its computed value in the
final `MDK` buffer, whatever happens later. -/
lemma calculateVectors_mdk_processed (msa : MSA) (sim : SimMat)
    (cutByGap : Bool) (gaps : Nat → Int) (preAlive : Bool)
    (mdk0 : Nat → Option ℝ) (i : Nat) (hi : i < msa.nRes)
    (hok : ∀ j, j ≤ i → ∃ v, colOutcome msa sim cutByGap gaps j = .ok v) :
    (calculateVectors msa (some sim) cutByGap gaps preAlive mdk0).mdk i =
      colValue msa sim cutByGap gaps i := by
  rw [calculateVectors_mdk_eq]
  have hdecomp : List.range msa.nRes =
      List.range (i + 1) ++ List.range' (i + 1) (msa.nRes - (i + 1)) := by
    rw [List.range_eq_range', List.range_eq_range']
    have h1 := List.range'_append 0 (i + 1) (msa.nRes - (i + 1)) 1
    have h2 : (msa.nRes - (i + 1)) + (i + 1) = msa.nRes := by omega
    rw [h2] at h1
    have h3 : 0 + 1 * (i + 1) = i + 1 := by omega
    rw [h3] at h1
    exact h1.symm
  rw [hdecomp, List.foldl_append,
    vecFold_ok_prefix msa sim cutByGap gaps _ _
      (fun j hj => hok j (by rw [List.mem_range] at hj; omega)),
    vecFold_untouched msa sim cutByGap gaps i _ _
      (fun j hj => by
        rw [List.mem_range'] at hj
        obtain ⟨t, _, rfl⟩ := hj
        omega)]
  simp only
  rw [if_pos (List.mem_range.mpr (by omega))]

/-- Error runs: with the first bad column at `c`, the call returns false
with the diagnostic, keeps `matrixIdentity` allocated, and leaves the
`MDK` buffer holding the computed values of the columns before `c` and
the previous contents from `c` on. -/
lemma calculateVectors_error_run (msa : MSA) (sim : SimMat) (cutByGap : Bool)
    (gaps : Nat → Int) (preAlive : Bool) (mdk0 : Nat → Option ℝ) (c : Nat)
    (e : VErr) (hc : c < msa.nRes)
    (hok : ∀ j, j < c → ∃ v, colOutcome msa sim cutByGap gaps j = .ok v)
    (herr : colOutcome msa sim cutByGap gaps c = .error e) :
    calculateVectors msa (some sim) cutByGap gaps preAlive mdk0 =
      { ok := false, err := some e,
        mdk := fun a => if a ∈ List.range c then
          colValue msa sim cutByGap gaps a else mdk0 a,
        matrixAlive := true } := by
  have hdecomp : List.range msa.nRes =
      List.range c ++ c :: List.range' (c + 1) (msa.nRes - (c + 1)) := by
    rw [List.range_eq_range', List.range_eq_range']
    have h1 := List.range'_append 0 c (msa.nRes - c) 1
    have h2 : (msa.nRes - c) + c = msa.nRes := by omega
    rw [h2] at h1
    have h3 : 0 + 1 * c = c := by omega
    rw [h3] at h1
    have h4 : msa.nRes - c = (msa.nRes - (c + 1)) + 1 := by omega
    rw [h4, List.range'_succ] at h1
    exact h1.symm
  simp only [calculateVectors]
  rw [hdecomp, List.foldl_append,
    vecFold_ok_prefix msa sim cutByGap gaps _ _
      (fun j hj => hok j (List.mem_range.mp hj)),
    List.foldl_cons]
  have hstep : vecStep msa sim cutByGap gaps
      (none, fun a => if a ∈ List.range c then
        colValue msa sim cutByGap gaps a else mdk0 a) c =
      (some e, fun a => if a ∈ List.range c then
        colValue msa sim cutByGap gaps a else mdk0 a) := by
    unfold vecStep
    simp only [herr]
  rw [hstep, vecFold_stuck]

/-- Successful runs process every column. -/
lemma vecFold_none_all (msa : MSA) (sim : SimMat) (cutByGap : Bool)
    (gaps : Nat → Int) :
    ∀ (L : List Nat) (m : Nat → Option ℝ),
      (L.foldl (vecStep msa sim cutByGap gaps) (none, m)).1 = none →
      ∀ i ∈ L, ∃ v, colOutcome msa sim cutByGap gaps i = .ok v := by
  intro L
  induction L with
  | nil => intro m _ i hi; simp at hi
  | cons j L ih =>
      intro m hnone i hi
      rw [List.foldl_cons] at hnone
      cases ho : colOutcome msa sim cutByGap gaps j with
      | error e =>
          exfalso
          have hstep : vecStep msa sim cutByGap gaps (none, m) j =
              (some e, m) := by
            unfold vecStep
            simp only [ho]
          rw [hstep, vecFold_stuck] at hnone
          exact Option.noConfusion hnone
      | ok v =>
          have hstep : vecStep msa sim cutByGap gaps (none, m) j =
              (none, fun a => if a = j then v else m a) := by
            unfold vecStep
            simp only [ho]
          rw [hstep] at hnone
          rcases List.mem_cons.mp hi with rfl | hiL
          · exact ⟨v, ho⟩
          · exact ih _ hnone i hiL

lemma calculateVectors_ok_all (msa : MSA) (sim : SimMat) (cutByGap : Bool)
    (gaps : Nat → Int) (preAlive : Bool) (mdk0 : Nat → Option ℝ)
    (hok : (calculateVectors msa (some sim) cutByGap gaps preAlive mdk0).ok = true) :
    ∀ i ∈ List.range msa.nRes, ∃ v, colOutcome msa sim cutByGap gaps i = .ok v := by
  apply vecFold_none_all msa sim cutByGap gaps _ mdk0
  simp only [calculateVectors] at hok
  rcases hr : (List.range msa.nRes).foldl (vecStep msa sim cutByGap gaps)
    (none, mdk0) with ⟨oe, m⟩
  rw [hr] at hok
  cases oe with
  | none => rfl
  | some e => exact absurd hok (by simp)

/-! ### Column-outcome interface lemmas -/

lemma colOutcome_ok_of_numden (msa : MSA) (sim : SimMat) (cutByGap : Bool)
    (gaps : Nat → Int) (i : Nat)
    (hng : ¬(cutByGap = true ∧ gapCutColumn msa gaps i))
    (nd : Option ℚ × Option ℚ) (hnd : columnNumDen msa sim i = some nd) :
    colOutcome msa sim cutByGap gaps i = .ok (colMDK nd) := by
  unfold colOutcome
  rw [if_neg hng]
  unfold columnNumDen at hnd
  cases hcl : colClassify msa sim i with
  | error e =>
      rw [hcl] at hnd
      exact absurd hnd (by simp)
  | ok cgcn =>
      rw [hcl] at hnd
      simp only [Option.some.injEq] at hnd
      show Except.ok (colMDK (colNumDen msa sim (matrixIdentityFill msa)
        cgcn.1 cgcn.2)) = Except.ok (colMDK nd)
      rw [hnd]

lemma colOutcome_gapcut (msa : MSA) (sim : SimMat) (gaps : Nat → Int) (i : Nat)
    (hg : gapCutColumn msa gaps i) :
    colOutcome msa sim true gaps i = .ok (some 0) := by
  unfold colOutcome
  rw [if_pos ⟨rfl, hg⟩]

lemma colOutcome_error_of_classify (msa : MSA) (sim : SimMat) (cutByGap : Bool)
    (gaps : Nat → Int) (i : Nat)
    (hng : ¬(cutByGap = true ∧ gapCutColumn msa gaps i)) (e : VErr)
    (hcl : colClassify msa sim i = .error e) :
    colOutcome msa sim cutByGap gaps i = .error e := by
  unfold colOutcome
  rw [if_neg hng, hcl]

lemma colValue_of_outcome (msa : MSA) (sim : SimMat) (cutByGap : Bool)
    (gaps : Nat → Int) (i : Nat) (v : Option ℝ)
    (ho : colOutcome msa sim cutByGap gaps i = .ok v) :
    colValue msa sim cutByGap gaps i = v := by
  unfold colValue
  rw [ho]

lemma colNumDen_congr (msa : MSA) (sim : SimMat)
    (m1 m2 : Nat → Nat → Option ℚ) (h : ∀ j k, m1 j k = m2 j k) :
    colNumDen msa sim m1 = colNumDen msa sim m2 := by
  have hm : m1 = m2 := funext fun j => funext fun k => h j k
  rw [hm]

/-! ### C9: failure is not atomic -/

/-- C9: when the scorer fails with `IncorrectSymbol` or `UndefinedSymbol`
at the first bad column `c`, it returns false having already overwritten
the `MDK` entries of every column processed before `c` (later entries
keep their previous contents), and the memoized identity matrix is not
released or reset on that path. -/
theorem C9_failure_not_atomic (msa : MSA) (sim : SimMat) (cutByGap : Bool)
    (gaps : Nat → Int) (preAlive : Bool) (mdk0 : Nat → Option ℝ) (c : Nat)
    (e : VErr) (hc : c < msa.nRes)
    (hok : ∀ j, j < c → ∃ v, colOutcome msa sim cutByGap gaps j = .ok v)
    (herr : colOutcome msa sim cutByGap gaps c = .error e) :
    (calculateVectors msa (some sim) cutByGap gaps preAlive mdk0).ok = false ∧
    (calculateVectors msa (some sim) cutByGap gaps preAlive mdk0).err = some e ∧
    (calculateVectors msa (some sim) cutByGap gaps preAlive mdk0).matrixAlive = true ∧
    (∀ i, i < c →
      (calculateVectors msa (some sim) cutByGap gaps preAlive mdk0).mdk i =
        colValue msa sim cutByGap gaps i) ∧
    (∀ i, c ≤ i →
      (calculateVectors msa (some sim) cutByGap gaps preAlive mdk0).mdk i = mdk0 i) := by
  rw [calculateVectors_error_run msa sim cutByGap gaps preAlive mdk0 c e hc hok herr]
  refine ⟨rfl, rfl, rfl, ?_, ?_⟩
  · intro i hi
    simp only
    rw [if_pos (List.mem_range.mpr hi)]
  · intro i hi
    simp only
    rw [if_neg (fun h => by rw [List.mem_range] at h; omega)]

/-- Single-sequence alignment whose second residue is `'*'` (42), an
incorrect symbol for the scorer. -/
def msaC9 : MSA where
  nSeqs := 1
  nRes := 2
  numberOfResidues := 2
  isAA := false
  seqs := fun _ k => if k = 0 then 65 else 42
  seqsName := fun _ => "s0"
  keepSeq := fun _ => true
  skipRes := fun _ => false

/-- A total similarity table: every letter maps to class 0, distance 0. -/
def simC9 : SimMat where
  vhash := fun _ => 0
  distMat := fun _ _ => 0

lemma matrixIdentityFill_C9 :
    ∀ j k, matrixIdentityFill msaC9 j k = (fun _ _ => (none : Option ℚ)) j k := by
  intro j k
  have hN : msaC9.nSeqs = 1 := rfl
  rw [matrixIdentityFill_get,
    if_neg (fun h => by obtain ⟨_, _, _⟩ := h; omega),
    if_neg (fun h => by obtain ⟨_, _, _⟩ := h; omega)]

lemma columnNumDen_C9 : columnNumDen msaC9 simC9 0 = some (some 0, some 0) := by
  unfold columnNumDen
  rw [colNumDen_congr msaC9 simC9 (matrixIdentityFill msaC9) (fun _ _ => none)
    matrixIdentityFill_C9]
  decide

/-- Witness for C9: the run on `msaC9` fails at column 1 with
`IncorrectSymbol '*'`, column 0 already overwritten, column 1 untouched,
matrix still allocated. -/
theorem C9_failure_not_atomic_witness :
    (calculateVectors msaC9 (some simC9) false (fun _ => 0) false (fun _ => none)).ok = false ∧
    (calculateVectors msaC9 (some simC9) false (fun _ => 0) false (fun _ => none)).err =
      some (.incorrectSymbol 42) ∧
    (calculateVectors msaC9 (some simC9) false (fun _ => 0) false (fun _ => none)).matrixAlive = true ∧
    (calculateVectors msaC9 (some simC9) false (fun _ => 0) false (fun _ => none)).mdk 0 =
      colValue msaC9 simC9 false (fun _ => 0) 0 ∧
    (calculateVectors msaC9 (some simC9) false (fun _ => 0) false (fun _ => none)).mdk 1 =
      none := by
  have h := C9_failure_not_atomic msaC9 simC9 false (fun _ => 0) false (fun _ => none) 1
    (.incorrectSymbol 42) (by decide)
    (fun j hj => by
      have hj0 : j = 0 := by omega
      subst hj0
      exact ⟨_, colOutcome_ok_of_numden msaC9 simC9 false (fun _ => 0) 0
        (fun h => Bool.noConfusion h.1) _ columnNumDen_C9⟩)
    (colOutcome_error_of_classify msaC9 simC9 false (fun _ => 0) 1
      (fun h => Bool.noConfusion h.1) (.incorrectSymbol 42) rfl)
  exact ⟨h.1, h.2.1, h.2.2.1, h.2.2.2.1 0 (by omega), h.2.2.2.2 1 (le_refl 1)⟩

/-! ### C1: the conservation branch selection -/

/-- C1 (amended): for every reached column whose accumulated denominator
is nonzero, with `Q = num/den`, the stored MDK score is `1` whenever
`Q < 0` and `exp(-Q)` whenever `Q ≥ 0` — the reverse of the spec's
branch assignment. -/
theorem C1_conservation_branches (msa : MSA) (sim : SimMat) (cutByGap : Bool)
    (gaps : Nat → Int) (preAlive : Bool) (mdk0 : Nat → Option ℝ) (i : Nat)
    (nu de : ℚ) (hi : i < msa.nRes)
    (hok : ∀ j, j < i → ∃ v, colOutcome msa sim cutByGap gaps j = .ok v)
    (hng : ¬(cutByGap = true ∧ gapCutColumn msa gaps i))
    (hnd : columnNumDen msa sim i = some (some nu, some de))
    (hde : de ≠ 0) :
    (nu / de < 0 →
      (calculateVectors msa (some sim) cutByGap gaps preAlive mdk0).mdk i = some 1) ∧
    (0 ≤ nu / de →
      (calculateVectors msa (some sim) cutByGap gaps preAlive mdk0).mdk i =
        some (Real.exp (-((nu / de : ℚ) : ℝ)))) := by
  have hoc := colOutcome_ok_of_numden msa sim cutByGap gaps i hng _ hnd
  have hok' : ∀ j, j ≤ i → ∃ v, colOutcome msa sim cutByGap gaps j = .ok v := by
    intro j hj
    rcases Nat.lt_or_ge j i with hlt | hge
    · exact hok j hlt
    · have : j = i := by omega
      subst this
      exact ⟨_, hoc⟩
  have hmdk := calculateVectors_mdk_processed msa sim cutByGap gaps preAlive mdk0 i hi hok'
  rw [hmdk, colValue_of_outcome _ _ _ _ _ _ hoc]
  unfold colMDK
  rw [if_neg (fun h => hde (by
    simp only [Option.some.injEq] at h
    exact h))]
  simp only
  constructor
  · intro hlt
    rw [if_pos hlt]
  · intro hge
    rw [if_neg (not_lt.mpr hge)]

/-- Two nucleotide sequences `"AA"` and `"AC"`: identity distance 1/2,
and at column 0 both residues are `'A'`. -/
def msaC1 : MSA where
  nSeqs := 2
  nRes := 2
  numberOfResidues := 2
  isAA := false
  seqs := fun i k => if i = 0 then 65 else (if k = 0 then 65 else 67)
  seqsName := fun i => if i = 0 then "s0" else "s1"
  keepSeq := fun _ => true
  skipRes := fun _ => false

/-- Table mapping every letter to class 0 with constant distance 2, so
column 0 of `msaC1` accumulates `num = 1`, `den = 1/2`, `Q = 2 ≥ 0`. -/
def simC1 : SimMat where
  vhash := fun _ => 0
  distMat := fun _ _ => 2

/-- Closed form of the identity matrix of `msaC1`. -/
def matC1 : Nat → Nat → Option ℚ :=
  fun x y => if (x = 0 ∧ y = 1) ∨ (x = 1 ∧ y = 0) then some (1 / 2) else none

lemma pairDistance_C1 : pairDistance msaC1 0 1 = some (1 / 2) := by
  have hc : pairCounts msaC1 0 1 = (1, 2) := by
    rw [pairCounts_eq_scalar]
    decide
  unfold pairDistance
  rw [hc]
  norm_num

lemma matrixIdentityFill_C1 : ∀ j k, matrixIdentityFill msaC1 j k = matC1 j k := by
  intro j k
  have hN : msaC1.nSeqs = 2 := rfl
  rw [matrixIdentityFill_get]
  unfold matC1
  by_cases h1 : j < k ∧ j < msaC1.nSeqs ∧ k < msaC1.nSeqs
  · have hj : j = 0 := by omega
    have hk : k = 1 := by omega
    subst hj; subst hk
    rw [if_pos h1, if_pos (Or.inl ⟨rfl, rfl⟩)]
    exact pairDistance_C1
  · by_cases h2 : k < j ∧ k < msaC1.nSeqs ∧ j < msaC1.nSeqs
    · have hk : k = 0 := by omega
      have hj : j = 1 := by omega
      subst hk; subst hj
      rw [if_neg h1, if_pos h2, if_pos (Or.inr ⟨rfl, rfl⟩)]
      exact pairDistance_C1
    · rw [if_neg h1, if_neg h2, if_neg (by
        rintro (⟨rfl, rfl⟩ | ⟨rfl, rfl⟩)
        · exact h1 ⟨by omega, by omega, by omega⟩
        · exact h2 ⟨by omega, by omega, by omega⟩)]

lemma columnNumDen_C1 : columnNumDen msaC1 simC1 0 = some (some 1, some (1 / 2)) := by
  unfold columnNumDen
  rw [colNumDen_congr msaC1 simC1 (matrixIdentityFill msaC1) matC1 matrixIdentityFill_C1]
  norm_num [colClassify, colNumDen, msaC1, simC1, matC1, toUpper, indetChar,
    gapChar, fqAdd, fqMul, List.range_succ]

/-- Witness for C1 (amended) on `msaC1`: `Q = 2 ≥ 0` and the stored score
is `exp(-2)`. -/
theorem C1_conservation_branches_witness :
    (calculateVectors msaC1 (some simC1) false (fun _ => 0) false (fun _ => none)).mdk 0 =
      some (Real.exp (-(((1 : ℚ) / (1 / 2) : ℚ) : ℝ))) := by
  have h := C1_conservation_branches msaC1 simC1 false (fun _ => 0) false
    (fun _ => none) 0 1 (1 / 2) (by decide)
    (fun j hj => absurd hj (by omega))
    (fun h => Bool.noConfusion h.1)
    columnNumDen_C1
    (by norm_num)
  exact h.2 (by norm_num)

/-- Counterexample to C1 as frozen: at column 0 of `msaC1` the
accumulated `Q = 1 / (1/2) = 2` is nonnegative, yet the stored score is
`exp(-2)`, not the `1` the spec's branch assignment demands. -/
theorem C1_counterexample :
    columnNumDen msaC1 simC1 0 = some (some 1, some (1 / 2)) ∧
    (0 : ℚ) ≤ 1 / (1 / 2) ∧
    (calculateVectors msaC1 (some simC1) false (fun _ => 0) false (fun _ => none)).mdk 0 =
      some (Real.exp (-(2 : ℝ))) ∧
    Real.exp (-(2 : ℝ)) ≠ 1 := by
  have hoc := colOutcome_ok_of_numden msaC1 simC1 false (fun _ => 0) 0
    (fun h => Bool.noConfusion h.1) _ columnNumDen_C1
  refine ⟨columnNumDen_C1, by norm_num, ?_, ?_⟩
  · have hmdk := calculateVectors_mdk_processed msaC1 simC1 false (fun _ => 0)
      false (fun _ => none) 0 (by decide)
      (fun j hj => by
        have hj0 : j = 0 := by omega
        subst hj0
        exact ⟨_, hoc⟩)
    rw [hmdk, colValue_of_outcome _ _ _ _ _ _ hoc]
    unfold colMDK
    rw [if_neg (by norm_num)]
    simp only
    rw [if_neg (by norm_num)]
    norm_num
  · have h2 : Real.exp (-(2 : ℝ)) < 1 := by
      have := Real.exp_lt_exp.mpr (show (-2 : ℝ) < 0 by norm_num)
      rwa [Real.exp_zero] at this
    exact ne_of_lt h2

/-! ### C3: the gap-cut pre-zeroing -/

/-- C3 (amended): with `cutByGap` enabled, a reached column whose gaps
value meets or exceeds `0.8 * numberOfResidues` — the post-trim residue
count, not 0.8 of the sequence count as the spec says — is assigned MDK
score 0, and its outcome is `.ok (some 0)` under **every** similarity
table, i.e. the table is never consulted for it. -/
theorem C3_gap_cut_zeroes (msa : MSA) (sim sim' : SimMat) (gaps : Nat → Int)
    (preAlive : Bool) (mdk0 : Nat → Option ℝ) (i : Nat) (hi : i < msa.nRes)
    (hok : ∀ j, j < i → ∃ v, colOutcome msa sim true gaps j = .ok v)
    (hgap : gapCutColumn msa gaps i) :
    (calculateVectors msa (some sim) true gaps preAlive mdk0).mdk i = some 0 ∧
    colOutcome msa sim' true gaps i = .ok (some 0) := by
  constructor
  · have hok' : ∀ j, j ≤ i → ∃ v, colOutcome msa sim true gaps j = .ok v := by
      intro j hj
      rcases Nat.lt_or_ge j i with hlt | hge
      · exact hok j hlt
      · have : j = i := by omega
        subst this
        exact ⟨_, colOutcome_gapcut msa sim gaps j hgap⟩
    rw [calculateVectors_mdk_processed msa sim true gaps preAlive mdk0 i hi hok',
      colValue_of_outcome _ _ _ _ _ _ (colOutcome_gapcut msa sim gaps i hgap)]
  · exact colOutcome_gapcut msa sim' gaps i hgap

/-- Two nucleotide sequences over 5 residues: `"AAAAA"` and `"ACCCC"`,
distance 4/5; column 0 holds two `'A'`s. -/
def msaC3 : MSA where
  nSeqs := 2
  nRes := 5
  numberOfResidues := 5
  isAA := false
  seqs := fun i k => if k = 0 then 65 else (if i = 0 then 65 else 67)
  seqsName := fun i => if i = 0 then "s0" else "s1"
  keepSeq := fun _ => true
  skipRes := fun _ => false

/-- Table mapping every letter to class 0 with constant distance 0, so
column 0 of `msaC3` accumulates `num = 0`, `den = 4/5`, `Q = 0`. -/
def simC3 : SimMat where
  vhash := fun _ => 0
  distMat := fun _ _ => 0

/-- External gap statistics claiming 2 gaps in column 0 (0.8 of the
sequence count is 1.6, 0.8 of the residue count is 4). -/
def gapsC3 : Nat → Int := fun i => if i = 0 then 2 else 0

/-- Closed form of the identity matrix of `msaC3`. -/
def matC3 : Nat → Nat → Option ℚ :=
  fun x y => if (x = 0 ∧ y = 1) ∨ (x = 1 ∧ y = 0) then some (4 / 5) else none

lemma pairDistance_C3 : pairDistance msaC3 0 1 = some (4 / 5) := by
  have hc : pairCounts msaC3 0 1 = (1, 5) := by
    rw [pairCounts_eq_scalar]
    decide
  unfold pairDistance
  rw [hc]
  norm_num

lemma matrixIdentityFill_C3 : ∀ j k, matrixIdentityFill msaC3 j k = matC3 j k := by
  intro j k
  have hN : msaC3.nSeqs = 2 := rfl
  rw [matrixIdentityFill_get]
  unfold matC3
  by_cases h1 : j < k ∧ j < msaC3.nSeqs ∧ k < msaC3.nSeqs
  · have hj : j = 0 := by omega
    have hk : k = 1 := by omega
    subst hj; subst hk
    rw [if_pos h1, if_pos (Or.inl ⟨rfl, rfl⟩)]
    exact pairDistance_C3
  · by_cases h2 : k < j ∧ k < msaC3.nSeqs ∧ j < msaC3.nSeqs
    · have hk : k = 0 := by omega
      have hj : j = 1 := by omega
      subst hk; subst hj
      rw [if_neg h1, if_pos h2, if_pos (Or.inr ⟨rfl, rfl⟩)]
      exact pairDistance_C3
    · rw [if_neg h1, if_neg h2, if_neg (by
        rintro (⟨rfl, rfl⟩ | ⟨rfl, rfl⟩)
        · exact h1 ⟨by omega, by omega, by omega⟩
        · exact h2 ⟨by omega, by omega, by omega⟩)]

lemma columnNumDen_C3 : columnNumDen msaC3 simC3 0 = some (some 0, some (4 / 5)) := by
  unfold columnNumDen
  rw [colNumDen_congr msaC3 simC3 (matrixIdentityFill msaC3) matC3 matrixIdentityFill_C3]
  norm_num [colClassify, colNumDen, msaC3, simC3, matC3, toUpper, indetChar,
    gapChar, fqAdd, fqMul, List.range_succ]

/-- Witness for C3 (amended): with every column's gaps value at 4 (which
is 0.8 of the 5 residues), column 0 of `msaC3` is pre-zeroed. -/
theorem C3_gap_cut_zeroes_witness :
    (calculateVectors msaC3 (some simC3) true (fun _ => 4) false (fun _ => none)).mdk 0 =
      some 0 ∧
    colOutcome msaC3 simC3 true (fun _ => 4) 0 = .ok (some 0) :=
  C3_gap_cut_zeroes msaC3 simC3 simC3 (fun _ => 4) false (fun _ => none) 0
    (by decide) (fun j hj => absurd hj (by omega))
    (by norm_num [gapCutColumn, msaC3])

/-- Counterexample to C3 as frozen: column 0 of `msaC3` has gaps value 2,
which meets 0.8 of the sequence count (1.6) — so the claim demands score
0 — but is below the code's threshold `0.8 * numberOfResidues = 4`, and
the column is scored through the table to `exp(-0) = 1 ≠ 0`. -/
theorem C3_counterexample :
    (4 : ℚ) / 5 * (msaC3.nSeqs : ℚ) ≤ ((gapsC3 0 : ℤ) : ℚ) ∧
    ¬ gapCutColumn msaC3 gapsC3 0 ∧
    (calculateVectors msaC3 (some simC3) true gapsC3 false (fun _ => none)).mdk 0 =
      some 1 ∧
    ¬ (calculateVectors msaC3 (some simC3) true gapsC3 false (fun _ => none)).mdk 0 =
      some 0 := by
  have hng : ¬(true = true ∧ gapCutColumn msaC3 gapsC3 0) := by
    rintro ⟨_, hg⟩
    unfold gapCutColumn at hg
    norm_num [msaC3, gapsC3] at hg
  have hoc := colOutcome_ok_of_numden msaC3 simC3 true gapsC3 0 hng _ columnNumDen_C3
  have hmdk := calculateVectors_mdk_processed msaC3 simC3 true gapsC3 false
    (fun _ => none) 0 (by decide)
    (fun j hj => by
      have hj0 : j = 0 := by omega
      subst hj0
      exact ⟨_, hoc⟩)
  have hval : (calculateVectors msaC3 (some simC3) true gapsC3 false
      (fun _ => none)).mdk 0 = some 1 := by
    rw [hmdk, colValue_of_outcome _ _ _ _ _ _ hoc]
    unfold colMDK
    rw [if_neg (by norm_num)]
    simp only
    rw [if_neg (by norm_num)]
    norm_num [Real.exp_zero]
  refine ⟨by norm_num [msaC3, gapsC3], ?_, hval, ?_⟩
  · intro hg
    unfold gapCutColumn at hg
    norm_num [msaC3, gapsC3] at hg
  · rw [hval]
    simp

/-! ## The overlap / spuriousness scorer (`calculateSpuriousVector`) -/

/-- Per-position agreement indicator of the scorer (SIMD body lines
465-481 and scalar tail lines 485-489, identical per-position
semantics): the residues are equal, or neither is gap/indeterminate. -/
def agreeInd (msa : MSA) (i j k : Nat) : Bool :=
  (!gapInd msa (msa.seqs i k) && !gapInd msa (msa.seqs j k)) ||
    (msa.seqs i k == msa.seqs j k)

/-- One inner-loop iteration for sequence `i` (lines 444-498): comparing
to sequence `j ≠ i` adds the agreement indicator of every position to
the byte counters `hits_u8` (wrapping at 256; SIMD lanes store
per-position bytes, so the update is per-position), then drains them
into the uint32 `hits` counters and clears them when `j % 255 == 0`. The
`j == i` iteration is skipped entirely, drain test included
(`continue`). The state is `(hits, hits_u8)`. -/
def spurStep (msa : MSA) (i : Nat) (st : (Nat → Nat) × (Nat → Nat)) (j : Nat) :
    (Nat → Nat) × (Nat → Nat) :=
  if j = i then st
  else
    if j % 255 = 0 then
      (fun k => (st.1 k + (st.2 k + (if agreeInd msa i j k then 1 else 0)) % 256) % 2 ^ 32,
       fun _ => 0)
    else
      (st.1, fun k => (st.2 k + (if agreeInd msa i j k then 1 else 0)) % 256)

/-- The per-position hit counts of sequence `i` after comparing against
every other sequence, including the final drain of line 501. -/
def spurHits (msa : MSA) (i : Nat) : Nat → Nat :=
  fun k =>
    (((List.range msa.nSeqs).foldl (spurStep msa i) (fun _ => 0, fun _ => 0)).1 k +
     ((List.range msa.nSeqs).foldl (spurStep msa i) (fun _ => 0, fun _ => 0)).2 k) % 2 ^ 32

/-- The number of other sequences agreeing with `i` at position `k` (the
value `hits[k]` is meant to accumulate). -/
def idealHits (msa : MSA) (i k : Nat) : Nat :=
  (List.range msa.nSeqs).countP (fun j => if j = i then false else agreeInd msa i j k)

/-- The overlap threshold (line 426):
`uint32_t(ceil(overlap * float(originalNumberOfSequences - 1)))`,
modelled over exact rationals (`overlap` stands for the exact value of
the float argument); the `toNat` is the uint32 conversion, which on the
nonnegative ceil values arising here is the numeric value. -/
def spurThreshold (msa : MSA) (overlap : ℚ) : Nat :=
  (Int.ceil (overlap * ((msa.nSeqs : ℚ) - 1))).toNat

/-- `calculateSpuriousVector` (lines 416-516): fails only when the
output pointer is absent (`outPresent = false`); otherwise writes, for
every sequence, the fraction of columns whose accumulated hit count
reaches the threshold (line 511; with a positive residue count the
division is the exact fraction). -/
def calculateSpuriousVector (msa : MSA) (overlap : ℚ) (outPresent : Bool) :
    Option (Nat → ℚ) :=
  if outPresent = false then none
  else
    some (fun i =>
      (((List.range msa.nRes).countP
          (fun k => spurThreshold msa overlap ≤ spurHits msa i k) : ℚ)) /
        (msa.nRes : ℚ))

/-- Joint invariant of the scorer's inner loop: the drained and byte
counters together hold the exact agreement count of the compared
sequences, and the byte counter stays below the wrap as long as at most
255 sequences have been compared. -/
lemma spurFold_invariant (msa : MSA) (i k : Nat) (hN : msa.nSeqs ≤ 255) :
    ∀ m, m ≤ msa.nSeqs →
      ((List.range m).foldl (spurStep msa i) (fun _ => 0, fun _ => 0)).1 k +
        ((List.range m).foldl (spurStep msa i) (fun _ => 0, fun _ => 0)).2 k =
        (List.range m).countP (fun j => if j = i then false else agreeInd msa i j k) ∧
      ((List.range m).foldl (spurStep msa i) (fun _ => 0, fun _ => 0)).2 k ≤ m := by
  intro m
  induction m with
  | zero => intro _; simp
  | succ m ih =>
      intro hm
      obtain ⟨ihsum, ihle⟩ := ih (by omega)
      have hcount : (List.range m).countP
          (fun j => if j = i then false else agreeInd msa i j k) ≤ m := by
        have := List.countP_le_length
          (p := fun j => if j = i then false else agreeInd msa i j k)
          (l := List.range m)
        simpa using this
      rw [List.range_succ, List.foldl_append, List.countP_append,
        List.foldl_cons, List.foldl_nil, List.countP_cons, List.countP_nil]
      set st := (List.range m).foldl (spurStep msa i) (fun _ => 0, fun _ => 0) with hst
      unfold spurStep
      by_cases hmi : m = i
      · rw [if_pos hmi]
        constructor
        · rw [ihsum]
          simp [hmi]
        · omega
      · rw [if_neg hmi]
        have hpred : (if m = i then false else agreeInd msa i m k) =
            agreeInd msa i m k := by rw [if_neg hmi]
        have hmod8 : (st.2 k + (if agreeInd msa i m k then 1 else 0)) % 256 =
            st.2 k + (if agreeInd msa i m k then 1 else 0) := by
          apply Nat.mod_eq_of_lt
          split <;> omega
        by_cases hdr : m % 255 = 0
        · rw [if_pos hdr]
          constructor
          · simp only
            rw [hmod8]
            have hb : st.1 k + (st.2 k + (if agreeInd msa i m k then 1 else 0)) <
                2 ^ 32 := by
              split <;> omega
            rw [Nat.mod_eq_of_lt hb, hpred]
            split <;> omega
          · simp only
            omega
        · rw [if_neg hdr]
          constructor
          · simp only
            rw [hmod8, hpred]
            split <;> omega
          · simp only
            rw [hmod8]
            split <;> omega

/-- Within the (per-`i`) no-overflow regime of at most 255 sequences,
the batched counters compute the exact per-position agreement counts. -/
lemma spurHits_eq_ideal (msa : MSA) (i k : Nat) (hN : msa.nSeqs ≤ 255) :
    spurHits msa i k = idealHits msa i k := by
  obtain ⟨hsum, hle⟩ := spurFold_invariant msa i k hN msa.nSeqs (le_refl _)
  have hcount : (List.range msa.nSeqs).countP
      (fun j => if j = i then false else agreeInd msa i j k) ≤ msa.nSeqs := by
    have := List.countP_le_length
      (p := fun j => if j = i then false else agreeInd msa i j k)
      (l := List.range msa.nSeqs)
    simpa using this
  unfold spurHits idealHits
  rw [Nat.mod_eq_of_lt (by omega), hsum]

/-- C7: the scorer derives its threshold as `ceil(overlap * (N-1))`
(converted to uint32), scores each sequence as the number of columns
whose accumulated hit count reaches the threshold divided by the
original residue count, the accumulated counts equal the exact
cross-sequence agreement counts in the no-overflow regime of at most 255
sequences, and with `overlap = 0` every sequence scores exactly 1. -/
theorem C7_spurious_score (msa : MSA) (overlap : ℚ) (v : Nat → ℚ) (i : Nat)
    (hres : 0 < msa.nRes)
    (hv : calculateSpuriousVector msa overlap true = some v) :
    spurThreshold msa overlap = (Int.ceil (overlap * ((msa.nSeqs : ℚ) - 1))).toNat ∧
    v i = (((List.range msa.nRes).countP
        (fun k => spurThreshold msa overlap ≤ spurHits msa i k) : ℚ)) / (msa.nRes : ℚ) ∧
    (msa.nSeqs ≤ 255 → ∀ k, spurHits msa i k = idealHits msa i k) ∧
    (overlap = 0 → v i = 1) := by
  have hv' : v = fun i =>
      (((List.range msa.nRes).countP
          (fun k => spurThreshold msa overlap ≤ spurHits msa i k) : ℚ)) /
        (msa.nRes : ℚ) := by
    unfold calculateSpuriousVector at hv
    rw [if_neg (by simp)] at hv
    exact (Option.some.inj hv).symm
  refine ⟨rfl, by rw [hv'], fun hN k => spurHits_eq_ideal msa i k hN, ?_⟩
  intro h0
  rw [hv']
  simp only
  have hthr : spurThreshold msa overlap = 0 := by
    unfold spurThreshold
    rw [h0]
    norm_num
  rw [hthr]
  have hall : ((List.range msa.nRes).countP
      (fun k => decide (0 ≤ spurHits msa i k))) = msa.nRes := by
    rw [List.countP_eq_length.mpr (fun a _ => by simp)]
    exact List.length_range msa.nRes
  rw [hall, div_self (by positivity)]

/-- The spuriousness vector of `msaSmall` at `overlap = 0`. -/
def spurSmall : Nat → ℚ := fun i =>
  (((List.range msaSmall.nRes).countP
      (fun k => spurThreshold msaSmall 0 ≤ spurHits msaSmall i k) : ℚ)) /
    (msaSmall.nRes : ℚ)

/-- Witness for C7 on `msaSmall` with `overlap = 0`: both sequences
score exactly 1. -/
theorem C7_spurious_score_witness : spurSmall 0 = 1 ∧ spurSmall 1 = 1 :=
  ⟨(C7_spurious_score msaSmall 0 spurSmall 0 (by decide) rfl).2.2.2 rfl,
   (C7_spurious_score msaSmall 0 spurSmall 1 (by decide) rfl).2.2.2 rfl⟩

/-- C10: on a single-sequence alignment with at least one residue and a
present output vector, the scorer succeeds and writes score 1 for the
sequence, for every overlap in `[0,1]`: the threshold `ceil(overlap*0)`
is 0 and every column trivially reaches it. -/
theorem C10_single_sequence (msa : MSA) (overlap : ℚ)
    (h1 : msa.nSeqs = 1) (hres : 0 < msa.nRes)
    (_h0 : 0 ≤ overlap) (_hle : overlap ≤ 1) :
    calculateSpuriousVector msa overlap true ≠ none ∧
    ∀ v, calculateSpuriousVector msa overlap true = some v → v 0 = 1 := by
  have hthr : spurThreshold msa overlap = 0 := by
    unfold spurThreshold
    rw [h1]
    norm_num
  constructor
  · unfold calculateSpuriousVector
    rw [if_neg (by simp)]
    simp
  · intro v hv
    unfold calculateSpuriousVector at hv
    rw [if_neg (by simp)] at hv
    rw [← Option.some.inj hv]
    simp only
    rw [hthr]
    have hall : ((List.range msa.nRes).countP
        (fun k => decide (0 ≤ spurHits msa 0 k))) = msa.nRes := by
      rw [List.countP_eq_length.mpr (fun a _ => by simp)]
      exact List.length_range msa.nRes
    rw [hall, div_self (by positivity)]

/-- The spuriousness vector of the single-sequence `msaC9` at
`overlap = 1/2`. -/
def spurC9 : Nat → ℚ := fun i =>
  (((List.range msaC9.nRes).countP
      (fun k => spurThreshold msaC9 (1 / 2) ≤ spurHits msaC9 i k) : ℚ)) /
    (msaC9.nRes : ℚ)

/-- Witness for C10 on the single-sequence `msaC9` at `overlap = 1/2`. -/
theorem C10_single_sequence_witness :
    calculateSpuriousVector msaC9 (1 / 2) true ≠ none ∧ spurC9 0 = 1 :=
  ⟨(C10_single_sequence msaC9 (1 / 2) rfl (by decide) (by norm_num) (by norm_num)).1,
   (C10_single_sequence msaC9 (1 / 2) rfl (by decide) (by norm_num) (by norm_num)).2
     spurC9 rfl⟩

/-! ## C5: score ranges -/

lemma sumInd_imp_lenInd (msa : MSA) (i j k : Nat) :
    sumInd msa i j k = true → lenInd msa i j k = true := by
  unfold sumInd lenInd
  cases gapInd msa (msa.seqs i k) <;> cases gapInd msa (msa.seqs j k) <;> simp

lemma hitInd_imp_dstInd (msa : MSA) (i j k : Nat) :
    hitInd msa i j k = true → dstInd msa i j k = true := by
  unfold hitInd
  intro h
  exact (Bool.and_eq_true _ _ |>.mp h).1

lemma pairCountsScalar_le (msa : MSA) (i j : Nat) :
    (pairCountsScalar msa i j).1 ≤ (pairCountsScalar msa i j).2 := by
  unfold pairCountsScalar scalarScan
  simp only
  apply Finset.sum_le_sum
  intro k _
  by_cases h : sumInd msa i j k = true
  · rw [if_pos h, if_pos (sumInd_imp_lenInd msa i j k h)]
  · rw [if_neg h]
    split <;> omega

lemma maskedCountsScalar_le (msa : MSA) (i j : Nat) :
    (maskedCountsScalar msa i j).1 ≤ (maskedCountsScalar msa i j).2 := by
  unfold maskedCountsScalar scalarScan
  simp only
  apply Finset.sum_le_sum
  intro k _
  by_cases h : hitInd msa i j k = true
  · rw [if_pos h, if_pos (hitInd_imp_dstInd msa i j k h)]
  · rw [if_neg h]
    split <;> omega

/-- A pair with at least one comparable position gets a real distance in
the unit interval. -/
lemma pairDistance_bounds (msa : MSA) (i j : Nat)
    (hpos : 0 < (pairCountsScalar msa i j).2) :
    ∃ q : ℚ, pairDistance msa i j = some q ∧ 0 ≤ q ∧ q ≤ 1 := by
  have hc := pairCounts_eq_scalar msa i j
  have hle := pairCountsScalar_le msa i j
  have hl : (0 : ℚ) < ((pairCountsScalar msa i j).2 : ℚ) := by exact_mod_cast hpos
  unfold pairDistance
  rw [hc, if_neg (by omega)]
  refine ⟨_, rfl, ?_, ?_⟩
  · have hd1 : ((pairCountsScalar msa i j).1 : ℚ) /
        ((pairCountsScalar msa i j).2 : ℚ) ≤ 1 := by
      rw [div_le_one hl]
      exact_mod_cast hle
    linarith
  · have hd0 : (0 : ℚ) ≤ ((pairCountsScalar msa i j).1 : ℚ) /
        ((pairCountsScalar msa i j).2 : ℚ) :=
      div_nonneg (by positivity) (le_of_lt hl)
    linarith

/-- Masked identities are always in the unit interval (the `dst == 0`
case is guarded to the sentinel 0). -/
lemma maskedIdentity_bounds (msa : MSA) (i j : Nat) :
    0 ≤ maskedIdentity msa i j ∧ maskedIdentity msa i j ≤ 1 := by
  have hc := maskedCounts_eq_scalar msa i j
  unfold maskedIdentity
  rw [hc]
  by_cases h : (maskedCountsScalar msa i j).2 = 0
  · rw [if_pos h]
    norm_num
  · rw [if_neg h]
    have hle := maskedCountsScalar_le msa i j
    have hl : (0 : ℚ) < ((maskedCountsScalar msa i j).2 : ℚ) := by
      have : 0 < (maskedCountsScalar msa i j).2 := Nat.pos_of_ne_zero h
      exact_mod_cast this
    constructor
    · exact div_nonneg (by positivity) (le_of_lt hl)
    · rw [div_le_one hl]
      exact_mod_cast hle

/-- `colMDK` on a NaN-free accumulation is a real score in `[0,1]`. -/
lemma colMDK_some_bounds (nu de : ℚ) :
    ∃ r : ℝ, colMDK (some nu, some de) = some r ∧ 0 ≤ r ∧ r ≤ 1 := by
  unfold colMDK
  by_cases h0 : (some de : Option ℚ) = some 0
  · rw [if_pos h0]
    exact ⟨0, rfl, le_refl 0, by norm_num⟩
  · rw [if_neg h0]
    simp only
    by_cases hlt : nu / de < 0
    · rw [if_pos hlt]
      exact ⟨1, rfl, by norm_num, le_refl 1⟩
    · rw [if_neg hlt]
      refine ⟨Real.exp (-((nu / de : ℚ) : ℝ)), rfl, le_of_lt (Real.exp_pos _), ?_⟩
      have hq : (0 : ℚ) ≤ nu / de := not_lt.mp hlt
      have hneg : -(((nu / de : ℚ)) : ℝ) ≤ 0 := by
        have : (0 : ℝ) ≤ ((nu / de : ℚ) : ℝ) := by exact_mod_cast hq
        linarith
      calc Real.exp (-((nu / de : ℚ) : ℝ)) ≤ Real.exp 0 := Real.exp_le_exp.mpr hneg
        _ = 1 := Real.exp_zero

lemma colNumDen_inner_some (msa : MSA) (sim : SimMat)
    (idMat : Nat → Nat → Option ℚ) (cg : Nat → Bool) (cn : Nat → Int) (j : Nat)
    (hmat : ∀ a b, a < b → b < msa.nSeqs → ∃ q, idMat a b = some q) :
    ∀ (L : List Nat), (∀ b ∈ L, b < msa.nSeqs) → ∀ (x y : ℚ),
      ∃ x' y',
        L.foldl (fun nd k =>
          if k ≤ j then nd
          else if cg k then nd
          else (fqAdd nd.1 (fqMul (idMat j k) (some (sim.distMat (cn j) (cn k)))),
                fqAdd nd.2 (idMat j k))) (some x, some y) = (some x', some y') := by
  intro L
  induction L with
  | nil => intro _ x y; exact ⟨x, y, rfl⟩
  | cons k L ih =>
      intro hL x y
      simp only [List.foldl_cons]
      by_cases h1 : k ≤ j
      · rw [if_pos h1]
        exact ih (fun b hb => hL b (List.mem_cons_of_mem k hb)) x y
      · rw [if_neg h1]
        by_cases h2 : cg k
        · rw [if_pos h2]
          exact ih (fun b hb => hL b (List.mem_cons_of_mem k hb)) x y
        · rw [if_neg h2]
          obtain ⟨q, hq⟩ := hmat j k (by omega) (hL k (List.mem_cons_self k L))
          rw [hq]
          simp only [fqAdd, fqMul]
          exact ih (fun b hb => hL b (List.mem_cons_of_mem k hb)) _ _

lemma colNumDen_some (msa : MSA) (sim : SimMat)
    (idMat : Nat → Nat → Option ℚ) (cg : Nat → Bool) (cn : Nat → Int)
    (hmat : ∀ a b, a < b → b < msa.nSeqs → ∃ q, idMat a b = some q) :
    ∃ nu de, colNumDen msa sim idMat cg cn = (some nu, some de) := by
  unfold colNumDen
  have aux : ∀ (L : List Nat) (x y : ℚ),
      ∃ nu de, L.foldl (fun nd j =>
        if cg j then nd
        else (List.range msa.nSeqs).foldl (fun nd k =>
          if k ≤ j then nd
          else if cg k then nd
          else (fqAdd nd.1 (fqMul (idMat j k) (some (sim.distMat (cn j) (cn k)))),
                fqAdd nd.2 (idMat j k))) nd) (some x, some y) =
        (some nu, some de) := by
    intro L
    induction L with
    | nil => intro x y; exact ⟨x, y, rfl⟩
    | cons j L ih =>
        intro x y
        simp only [List.foldl_cons]
        by_cases h1 : cg j
        · rw [if_pos h1]
          exact ih x y
        · rw [if_neg h1]
          obtain ⟨x', y', hin⟩ := colNumDen_inner_some msa sim idMat cg cn j hmat
            (List.range msa.nSeqs) (fun b hb => List.mem_range.mp hb) x y
          rw [hin]
          exact ih x' y'
  exact aux _ 0 0

/-- C5 (amended): on well-formed alignments all of whose sequence pairs
have at least one comparable position, every produced score lies in
`[0,1]`: identity-matrix distances, masked identity fractions, the MDK
values of a successful scorer run, and spuriousness fractions. (Without
the comparable-position condition the unguarded matrix division yields
NaN, see the counterexample.) -/
theorem C5_scores_in_unit_interval (msa : MSA) (sim : SimMat) (cutByGap : Bool)
    (gaps : Nat → Int) (preAlive : Bool) (mdk0 : Nat → Option ℝ) (overlap : ℚ)
    (hres : 0 < msa.nRes) (_hseq : 0 < msa.nSeqs)
    (hpairs : ∀ j k, j < k → k < msa.nSeqs → 0 < (pairCountsScalar msa j k).2) :
    (∀ i j, i < j → j < msa.nSeqs →
      ∃ q : ℚ, matrixIdentityFill msa i j = some q ∧ 0 ≤ q ∧ q ≤ 1) ∧
    (∀ i j, 0 ≤ maskedIdentity msa i j ∧ maskedIdentity msa i j ≤ 1) ∧
    ((calculateVectors msa (some sim) cutByGap gaps preAlive mdk0).ok = true →
      ∀ i, i < msa.nRes →
        ∃ r : ℝ,
          (calculateVectors msa (some sim) cutByGap gaps preAlive mdk0).mdk i = some r ∧
          0 ≤ r ∧ r ≤ 1) ∧
    (∀ v i, calculateSpuriousVector msa overlap true = some v →
      0 ≤ v i ∧ v i ≤ 1) := by
  have hentry : ∀ i j, i < j → j < msa.nSeqs →
      ∃ q : ℚ, matrixIdentityFill msa i j = some q ∧ 0 ≤ q ∧ q ≤ 1 := by
    intro i j hij hj
    obtain ⟨q, hq, h0, h1⟩ := pairDistance_bounds msa i j (hpairs i j hij hj)
    refine ⟨q, ?_, h0, h1⟩
    rw [matrixIdentityFill_get, if_pos ⟨hij, by omega, hj⟩]
    exact hq
  refine ⟨hentry, fun i j => maskedIdentity_bounds msa i j, ?_, ?_⟩
  · intro hok i hi
    have hall := calculateVectors_ok_all msa sim cutByGap gaps preAlive mdk0 hok
    have hok' : ∀ j, j ≤ i → ∃ v, colOutcome msa sim cutByGap gaps j = .ok v :=
      fun j hj => hall j (List.mem_range.mpr (by omega))
    rw [calculateVectors_mdk_processed msa sim cutByGap gaps preAlive mdk0 i hi hok']
    by_cases hgc : cutByGap = true ∧ gapCutColumn msa gaps i
    · have ho : colOutcome msa sim cutByGap gaps i = .ok (some 0) := by
        unfold colOutcome
        rw [if_pos hgc]
      rw [colValue_of_outcome _ _ _ _ _ _ ho]
      exact ⟨0, rfl, le_refl 0, by norm_num⟩
    · cases hcl : colClassify msa sim i with
      | error e =>
          exfalso
          obtain ⟨v, hv⟩ := hall i (List.mem_range.mpr hi)
          rw [colOutcome_error_of_classify msa sim cutByGap gaps i hgc e hcl] at hv
          exact Except.noConfusion hv
      | ok cgcn =>
          have hmat : ∀ a b, a < b → b < msa.nSeqs →
              ∃ q, matrixIdentityFill msa a b = some q := by
            intro a b hab hb
            obtain ⟨q, hq, _, _⟩ := hentry a b hab hb
            exact ⟨q, hq⟩
          obtain ⟨nu, de, hnd⟩ := colNumDen_some msa sim (matrixIdentityFill msa)
            cgcn.1 cgcn.2 hmat
          have ho : colOutcome msa sim cutByGap gaps i = .ok (colMDK (some nu, some de)) := by
            have := colOutcome_ok_of_numden msa sim cutByGap gaps i hgc
              (colNumDen msa sim (matrixIdentityFill msa) cgcn.1 cgcn.2)
              (by unfold columnNumDen; rw [hcl])
            rw [hnd] at this
            exact this
          rw [colValue_of_outcome _ _ _ _ _ _ ho]
          exact colMDK_some_bounds nu de
  · intro v i hv
    unfold calculateSpuriousVector at hv
    rw [if_neg (by simp)] at hv
    rw [← Option.some.inj hv]
    simp only
    have hcount : (List.range msa.nRes).countP
        (fun k => decide (spurThreshold msa overlap ≤ spurHits msa i k)) ≤ msa.nRes := by
      have := List.countP_le_length
        (p := fun k => decide (spurThreshold msa overlap ≤ spurHits msa i k))
        (l := List.range msa.nRes)
      simpa using this
    have hl : (0 : ℚ) < (msa.nRes : ℚ) := by exact_mod_cast hres
    constructor
    · positivity
    · rw [div_le_one hl]
      exact_mod_cast hcount

/-- Witness for C5 (amended) on `msaSmall` with the trivial table. -/
theorem C5_scores_in_unit_interval_witness :
    (∀ i j, i < j → j < msaSmall.nSeqs →
      ∃ q : ℚ, matrixIdentityFill msaSmall i j = some q ∧ 0 ≤ q ∧ q ≤ 1) ∧
    (∀ i j, 0 ≤ maskedIdentity msaSmall i j ∧ maskedIdentity msaSmall i j ≤ 1) ∧
    ((calculateVectors msaSmall (some simC9) false (fun _ => 0) false
        (fun _ => none)).ok = true →
      ∀ i, i < msaSmall.nRes →
        ∃ r : ℝ,
          (calculateVectors msaSmall (some simC9) false (fun _ => 0) false
            (fun _ => none)).mdk i = some r ∧ 0 ≤ r ∧ r ≤ 1) ∧
    (∀ v i, calculateSpuriousVector msaSmall (1 / 2) true = some v →
      0 ≤ v i ∧ v i ≤ 1) :=
  C5_scores_in_unit_interval msaSmall simC9 false (fun _ => 0) false
    (fun _ => none) (1 / 2) (by decide) (by decide)
    (fun j k hjk hk => by
      have hN : msaSmall.nSeqs = 2 := rfl
      have hk1 : k = 1 := by omega
      have hj0 : j = 0 := by omega
      subst hk1
      subst hj0
      decide)

/-- Counterexample to C5 as frozen: `msaDegen` is a well-formed
alignment (two sequences, one residue), yet the identity-matrix value of
its only pair is NaN (`none`), not a value in `[0,1]`. -/
theorem C5_counterexample :
    0 < msaDegen.nRes ∧ 0 < msaDegen.nSeqs ∧
    ¬ ∃ q : ℚ, matrixIdentityFill msaDegen 0 1 = some q ∧ 0 ≤ q ∧ q ≤ 1 := by
  refine ⟨by decide, by decide, ?_⟩
  rintro ⟨q, hq, _, _⟩
  rw [matrixIdentityFill_degen] at hq
  exact Option.noConfusion hq

end PyTrimal
